import Mathlib

/-!
Verification development for the dispenso future core
(`src/dispenso/detail/future_impl.h`, `src/dispenso/detail/future_impl2.h`).

The C++ sources are shallowly embedded:

* `FutureImpl` models the mutable fields of `FutureImplBase<Result>` plus an
  event log recording, in program order, the observable actions the code
  performs (producer invocation, ready publication, task-set counter
  decrement, then-chain executions, deallocation).
* Sequential member functions (`runToResult`, `result`, `run`, `waitCommon`,
  `wait`, `addToThenChainOrExecute`, `setAsResult`, `setReady`,
  `createValueFutureImplReady`, `decRefCountMaybeDestroy`) are translated
  one-to-one as state transformers.
* The lock-free races are modelled by two labelled small-step transition
  systems: `RunStep` (threads racing through `FutureImplBase::run`, at the
  granularity of the status CAS and the subsequent statements) and
  `ThenStep` (continuation installers racing with the completing thread
  through `addToThenChainOrExecute` / `tryExecuteThenChain`).
* `when_all` (both the iterator-range and tuple forms of
  `future_impl2.h`) is modelled by its event trace plus the shared fan-in
  counter dynamics of the installed continuations.
-/

namespace Dispenso

/-- `FutureImplBase::Status`: `kNotStarted`, `kRunning`, `kReady`. -/
inductive Status where
  | notStarted
  | running
  | ready
deriving DecidableEq, Repr

/-- Observable actions of the core, logged in program order. -/
inductive Event where
  | writeResult          -- placement-new of the result into `resultBuf_`
  | captureException     -- `exception_ = std::current_exception()`
  | invokeProducer       -- entering `runFunc()` / invoking `func_`
  | notifyReady          -- `status_.notify(kReady)`
  | decTaskSetCounter    -- `taskSetCounter_->fetch_sub(1)`
  | setReadyRelaxed      -- `setReady()` relaxed status store
  | execThen (node : Nat) -- executing a then-chain functor (schedules its impl)
  | deallocEvent         -- `dealloc()`
deriving DecidableEq, Repr

/-- The mutable state of one `FutureImplBase<Result>` core, with failure type
`E` standing for `std::exception_ptr` contents.  `resultSlot` models the
placement-new state of `resultBuf_` (or `result_` for references), and
`exceptionSlot` models `exception_`. -/
structure FutureImpl (R E : Type) where
  status : Status
  resultSlot : Option R
  exceptionSlot : Option E
  refCount : Nat
  allowInline : Bool
  hasTaskSetCounter : Bool
  taskSetCounter : Int
  thenChain : List Nat
  freed : Bool
  events : List Event
deriving DecidableEq, Repr

/-- `FutureImplResultMember::runToResult(f)`: invoke the producer; a returned
value is placed in the result buffer, a signalled failure is captured in
`exception_`.  The producer is represented by its outcome. -/
def runToResult {R E : Type} (producer : Except E R) (c : FutureImpl R E) :
    FutureImpl R E :=
  match producer with
  | Except.ok v =>
      { c with resultSlot := some v, events := c.events ++ [Event.writeResult] }
  | Except.error e =>
      { c with exceptionSlot := some e,
               events := c.events ++ [Event.captureException] }

/-- `FutureImplResultMember::result()`: rethrows a captured exception,
otherwise reads the result buffer.  `none` marks the undefined read of a
never-populated buffer. -/
def result {R E : Type} (c : FutureImpl R E) : Option (Except E R) :=
  match c.exceptionSlot with
  | some e => some (Except.error e)
  | none => c.resultSlot.map Except.ok

/-- `FutureImplBase::ready()`: relaxed load of `status_ == kReady`. -/
def readyLoad {R E : Type} (c : FutureImpl R E) : Bool :=
  c.status = Status.ready

/-- `FutureImplBase::tryExecuteThenChain()`: CAS the whole chain to null and
run the grabbed list (each functor runs its `next`, so one grab executes the
entire list). -/
def tryExecuteThenChain {R E : Type} (c : FutureImpl R E) : FutureImpl R E :=
  { c with thenChain := [],
           events := c.events ++ c.thenChain.map Event.execThen }

/-- `FutureImplBase::run(int s)`: CAS-loop `NotStarted -> Running`; the winner
invokes the producer, publishes Ready, decrements the task-set counter when
attached, and drains the then-chain.  Any other observed status returns
`false` with no effect. -/
def runProtected {R E : Type} (producer : Except E R) (s : Status)
    (c : FutureImpl R E) : Bool × FutureImpl R E :=
  if s = Status.notStarted ∧ c.status = Status.notStarted then
    let c1 := { c with status := Status.running,
                       events := c.events ++ [Event.invokeProducer] }
    let c2 := runToResult producer c1
    let c3 := { c2 with status := Status.ready,
                        events := c2.events ++ [Event.notifyReady] }
    let c4 :=
      if c3.hasTaskSetCounter then
        { c3 with taskSetCounter := c3.taskSetCounter - 1,
                  events := c3.events ++ [Event.decTaskSetCounter] }
      else c3
    (true, tryExecuteThenChain c4)
  else (false, c)

/-- `FutureImplBase::decRefCountMaybeDestroy()`. -/
def decRefCountMaybeDestroy {R E : Type} (c : FutureImpl R E) : FutureImpl R E :=
  if c.refCount = 1 then
    { c with refCount := 0, freed := true,
             events := c.events ++ [Event.deallocEvent] }
  else
    { c with refCount := c.refCount - 1 }

/-- `FutureImplBase::run()`: `run(kNotStarted)` then release one reference. -/
def run {R E : Type} (producer : Except E R) (c : FutureImpl R E) :
    FutureImpl R E :=
  decRefCountMaybeDestroy (runProtected producer Status.notStarted c).2

/-- `FutureImplBase::waitCommon(bool allowInline)`:
`s == kReady || (allowInline && run(s))` with short-circuiting. -/
def waitCommon {R E : Type} (producer : Except E R) (allowInline : Bool)
    (c : FutureImpl R E) : Bool × FutureImpl R E :=
  if c.status = Status.ready then (true, c)
  else if allowInline then runProtected producer c.status c
  else (false, c)

/-- Which control path a call to `FutureImplBase::wait()` takes. -/
inductive WaitPath where
  | returnedReady    -- `waitCommon` saw `kReady` and `wait` returned at once
  | ranInlineAttempt -- `waitCommon` called `run(s)` with `s = kNotStarted`
  | blockedOnEvent   -- fell through to `status_.wait(kReady)`
deriving DecidableEq, Repr

/-- `FutureImplBase::wait()`: `if (waitCommon(true)) return;` then block on
`status_.wait(kReady)`.  Note the hard-coded `true` passed to `waitCommon`. -/
def wait {R E : Type} (producer : Except E R) (c : FutureImpl R E) :
    WaitPath × FutureImpl R E :=
  let wc := waitCommon producer true c
  if wc.1 then
    (if c.status = Status.ready then WaitPath.returnedReady
     else WaitPath.ranInlineAttempt, wc.2)
  else (WaitPath.blockedOnEvent, wc.2)

/-- Modelled from the spec: section 4.1 describes `wait()` as attempting the
inline run only when `allow_inline` is true, and blocking otherwise.  This
definition follows the spec's words, for comparison against `wait`. -/
def specWait {R E : Type} (producer : Except E R) (c : FutureImpl R E) :
    WaitPath × FutureImpl R E :=
  if c.status = Status.ready then (WaitPath.returnedReady, c)
  else if c.allowInline ∧ c.status = Status.notStarted then
    (WaitPath.ranInlineAttempt, (runProtected producer c.status c).2)
  else (WaitPath.blockedOnEvent, c)

/-- `FutureImplBase::addToThenChainOrExecute`: if an acquire load of `status`
sees `kReady`, the functor is invoked directly (it schedules `impl`, and its
`next` is null); otherwise a node is allocated, CAS-pushed onto the chain,
and `status` is re-checked, draining if Ready meanwhile. -/
def addToThenChainOrExecute {R E : Type} (node : Nat) (c : FutureImpl R E) :
    FutureImpl R E :=
  if c.status = Status.ready then
    { c with events := c.events ++ [Event.execThen node] }
  else
    let c1 := { c with thenChain := node :: c.thenChain }
    if c1.status = Status.ready then tryExecuteThenChain c1 else c1

/-- A freshly constructed core, as built by `createFutureImpl`: status
`kNotStarted`, refcount 2, both slots unset, empty chain. -/
def freshImpl {R E : Type} (allowInline : Bool) (hasTSC : Bool) (tsc : Int) :
    FutureImpl R E :=
  { status := Status.notStarted
    resultSlot := none
    exceptionSlot := none
    refCount := 2
    allowInline := allowInline
    hasTaskSetCounter := hasTSC
    taskSetCounter := tsc
    thenChain := []
    freed := false
    events := [] }

/-- `FutureImplResultMember::setAsResult`. -/
def setAsResult {R E : Type} (v : R) (c : FutureImpl R E) : FutureImpl R E :=
  { c with resultSlot := some v, events := c.events ++ [Event.writeResult] }

/-- `FutureImplBase::setReady()`: relaxed stores of `status_ = kReady` and
`refCount_ = 1`. -/
def setReady {R E : Type} (c : FutureImpl R E) : FutureImpl R E :=
  { c with status := Status.ready, refCount := 1,
           events := c.events ++ [Event.setReadyRelaxed] }

/-- `createValueFutureImplReady(t)`: allocate an impl with no producer, write
the result slot, then `setReady()`.  `allowInline_` is left uninitialized by
this path, so it is a parameter here. -/
def createValueFutureImplReady {R E : Type} (aI : Bool) (v : R) :
    FutureImpl R E :=
  setReady (setAsResult v (freshImpl aI false 0))

/-- Modelled from the spec: `Future::get` (section 4.2, not under `src/`)
waits, then re-signals the captured failure or returns the stored value. -/
def get {R E : Type} (producer : Except E R) (c : FutureImpl R E) :
    Option (Except E R) :=
  result (wait producer c).2

/-- Operations a holder of the core may perform; the producer of the core is
fixed, so it is a parameter of `applyOp` rather than of the op. -/
inductive CoreOp where
  | runOp
  | waitOp
  | addThen (node : Nat)
  | incRefOp
  | decRefOp
deriving DecidableEq, Repr

/-- Apply one core operation. -/
def applyOp {R E : Type} (producer : Except E R) :
    CoreOp → FutureImpl R E → FutureImpl R E
  | CoreOp.runOp, c => run producer c
  | CoreOp.waitOp, c => (wait producer c).2
  | CoreOp.addThen n, c => addToThenChainOrExecute n c
  | CoreOp.incRefOp, c => { c with refCount := c.refCount + 1 }
  | CoreOp.decRefOp, c => decRefCountMaybeDestroy c

/-- Apply a sequence of core operations from left to right. -/
def applyOps {R E : Type} (producer : Except E R) (ops : List CoreOp)
    (c : FutureImpl R E) : FutureImpl R E :=
  ops.foldl (fun st op => applyOp producer op st) c

/-- A core whose producer has been run by its scheduled `run()` call, as
happens to each `when_all` input when the pool executes it. -/
def completedCore {R E : Type} (producer : Except E R) : FutureImpl R E :=
  run producer (freshImpl true false 0)

/-! ### `when_all` (future_impl2.h) -/

/-- The shared state of a `when_all` composition
(`WhenAllSharedVec` / `WhenAllSharedTuple`): the `remaining` counter `count`,
whether the intercepted thunk `f` has been stored, and how many times `f` has
been fired.  The input container itself is modelled separately. -/
structure WhenAllShared where
  count : Nat
  fStored : Bool
  fFired : Nat
deriving DecidableEq, Repr

/-- The fan-in continuation `[shared](auto&&) { if (shared->count.fetch_sub(1)
== 1) shared->f(); }` installed on every input.  Its argument (the completed
input future, possibly holding a failure) is ignored by the body, exactly as
the unnamed `auto&&` parameter is. -/
def fanInContinuation {E T : Type} (_inputOutcome : Except E T)
    (sh : WhenAllShared) : WhenAllShared :=
  let old := sh.count
  let sh1 := { sh with count := sh.count - 1 }
  if old = 1 then { sh1 with fFired := sh1.fFired + 1 } else sh1

/-- Running the fan-in continuations of the given inputs, in the order the
inputs happen to complete.  The continuation ignores its input, so one list
order represents every completion order with the same multiset of inputs. -/
def completeInputs {E T : Type} (outcomes : List (Except E T))
    (sh : WhenAllShared) : WhenAllShared :=
  outcomes.foldl (fun s o => fanInContinuation o s) sh

/-- Shared state as first set up by `when_all`: `count` = number of inputs,
`f` stored (step 3 of the protocol), never fired. -/
def whenAllInit (n : Nat) : WhenAllShared :=
  { count := n, fStored := true, fFired := 0 }

/-- Program-order events of the `when_all` bodies. -/
inductive WhenAllEvent where
  | constructOutputFuture -- `ResultFuture res(whenComplete, interceptor)`
  | storeF                -- `shared->f = std::move(interceptor.savedOffFn)`
  | installContinuation (i : Nat) -- `then(..., kImmediateInvoker)` on input i
deriving DecidableEq, Repr

/-- Program-order trace of `when_all(first, last)` over `n` inputs: construct
the output future against the interception invoker, transfer the captured
thunk into `shared->f`, then walk the vector installing continuations. -/
def whenAllVecTrace (n : Nat) : List WhenAllEvent :=
  [WhenAllEvent.constructOutputFuture, WhenAllEvent.storeF] ++
    (List.range n).map WhenAllEvent.installContinuation

/-- Program-order trace of the tuple form `when_all(futures...)`: the same
protocol, with `forEach` unrolling the tuple from index `n-1` down to 0. -/
def whenAllTupleTrace (n : Nat) : List WhenAllEvent :=
  [WhenAllEvent.constructOutputFuture, WhenAllEvent.storeF] ++
    ((List.range n).reverse).map WhenAllEvent.installContinuation

/-! ### `FutureBase` handles (refcounted pointers to cores) -/

/-- Reference counts of the cores a handle may point to (`refCounts.getD p 0`
is core `p`'s count), plus the list of cores whose `dealloc()` ran. -/
structure CoreHeap where
  refCounts : List Nat
  deallocated : List Nat
deriving DecidableEq, Repr

/-- `incRefCount()` on core `p`. -/
def heapIncRef (p : Nat) (h : CoreHeap) : CoreHeap :=
  { h with refCounts := h.refCounts.set p (h.refCounts.getD p 0 + 1) }

/-- `decRefCountMaybeDestroy()` on core `p`: frees the core when the count
drops from 1 to 0. -/
def heapDecRefMaybeDestroy (p : Nat) (h : CoreHeap) : CoreHeap :=
  if h.refCounts.getD p 0 = 1 then
    { refCounts := h.refCounts.set p 0, deallocated := h.deallocated ++ [p] }
  else
    { h with refCounts := h.refCounts.set p (h.refCounts.getD p 0 - 1) }

/-- A `FutureBase<Result>` handle: just the (possibly null) `impl_` pointer. -/
structure FutureBaseHandle where
  impl : Option Nat
deriving DecidableEq, Repr

/-- `FutureBase::valid()`: `impl_ != nullptr`. -/
def valid (f : FutureBaseHandle) : Bool :=
  f.impl.isSome

/-- The copy constructor `FutureBase(const FutureBase&)`: copy the pointer and,
when non-null, bump the refcount. -/
def copyConstruct (src : FutureBaseHandle) (h : CoreHeap) :
    FutureBaseHandle × CoreHeap :=
  match src.impl with
  | some p => ({ impl := some p }, heapIncRef p h)
  | none => ({ impl := none }, h)

/-- The move constructor `FutureBase(FutureBase&&)`: steal the pointer; the
source becomes null.  Returns (destination, moved-from source). -/
def moveConstruct (src : FutureBaseHandle) :
    FutureBaseHandle × FutureBaseHandle :=
  ({ impl := src.impl }, { impl := none })

/-- `FutureBase::copy(const FutureBase&)`, the copy-assignment helper: no-op
on identical pointers; otherwise release the old core (if any), take the new
pointer, and bump it (if non-null). -/
def copyAssign (dst src : FutureBaseHandle) (h : CoreHeap) :
    FutureBaseHandle × CoreHeap :=
  if dst.impl = src.impl then (dst, h)
  else
    let h1 :=
      match dst.impl with
      | some p => heapDecRefMaybeDestroy p h
      | none => h
    match src.impl with
    | some q => ({ impl := some q }, heapIncRef q h1)
    | none => ({ impl := none }, h1)

/-- The destructor `~FutureBase()`: release the core when non-null. -/
def destructHandle (f : FutureBaseHandle) (h : CoreHeap) : CoreHeap :=
  match f.impl with
  | some p => heapDecRefMaybeDestroy p h
  | none => h

/-! ### Interleaving model of `FutureImplBase::run` (the status CAS race)

Any number of threads execute `run()` on one shared core.  Each thread's
program is cut at its atomic accesses: the `compare_exchange` on `status_`,
`runFunc()`, `status_.notify(kReady)`, the task-set counter `fetch_sub`, and
the refcount release.  The then-chain drain that follows is modelled by the
separate `ThenStep` system below. -/

/-- Program counter of one thread inside `run()`. -/
inductive RunPC where
  | casTry      -- about to attempt the `NotStarted -> Running` CAS
  | runBody     -- won the CAS; about to call `runFunc()`
  | notifyPC    -- about to `status_.notify(kReady)`
  | counterPC   -- about to decrement the task-set counter (if attached)
  | releasePC   -- about to `decRefCountMaybeDestroy()`
  | finished
deriving DecidableEq, Repr

/-- Global events of the run race, tagged with the acting thread. -/
inductive RunEvent where
  | casSucceed (t : Nat)
  | casFail (t : Nat)
  | invokeProducer (t : Nat)
  | publishReady (t : Nat)
  | decTaskSet (t : Nat)
  | refReleased (t : Nat)
deriving DecidableEq, Repr

/-- Global state of the run race: the core's shared fields plus every
thread's program counter and the event log. -/
structure RunState where
  status : Status
  refCount : Nat
  hasCounter : Bool
  taskSet : Int
  winner : Option Nat
  producerRuns : Nat
  pc : Nat → RunPC
  log : List RunEvent

/-- Initial state: a fresh core (status `kNotStarted`), every thread poised to
call `run()`. -/
def runInit (hasCounter : Bool) (tsc : Int) (rc : Nat) : RunState :=
  { status := Status.notStarted
    refCount := rc
    hasCounter := hasCounter
    taskSet := tsc
    winner := none
    producerRuns := 0
    pc := fun _ => RunPC.casTry
    log := [] }

/-- One atomic step of thread `t` in the run race, following
`FutureImplBase::run(int)` / `run()` statement by statement. -/
inductive RunStep : Nat → RunState → RunState → Prop where
  | casWin (t : Nat) (s : RunState) :
      s.pc t = RunPC.casTry → s.status = Status.notStarted →
      RunStep t s
        { s with
          status := Status.running,
          winner := some t,
          pc := Function.update s.pc t RunPC.runBody,
          log := s.log ++ [RunEvent.casSucceed t] }
  | casLose (t : Nat) (s : RunState) :
      s.pc t = RunPC.casTry → s.status ≠ Status.notStarted →
      RunStep t s
        { s with
          pc := Function.update s.pc t RunPC.releasePC,
          log := s.log ++ [RunEvent.casFail t] }
  | producerStep (t : Nat) (s : RunState) :
      s.pc t = RunPC.runBody →
      RunStep t s
        { s with
          producerRuns := s.producerRuns + 1,
          pc := Function.update s.pc t RunPC.notifyPC,
          log := s.log ++ [RunEvent.invokeProducer t] }
  | notifyStep (t : Nat) (s : RunState) :
      s.pc t = RunPC.notifyPC →
      RunStep t s
        { s with
          status := Status.ready,
          pc := Function.update s.pc t RunPC.counterPC,
          log := s.log ++ [RunEvent.publishReady t] }
  | counterDec (t : Nat) (s : RunState) :
      s.pc t = RunPC.counterPC → s.hasCounter = true →
      RunStep t s
        { s with
          taskSet := s.taskSet - 1,
          pc := Function.update s.pc t RunPC.releasePC,
          log := s.log ++ [RunEvent.decTaskSet t] }
  | counterSkip (t : Nat) (s : RunState) :
      s.pc t = RunPC.counterPC → s.hasCounter = false →
      RunStep t s { s with pc := Function.update s.pc t RunPC.releasePC }
  | releaseStep (t : Nat) (s : RunState) :
      s.pc t = RunPC.releasePC →
      RunStep t s
        { s with
          refCount := s.refCount - 1,
          pc := Function.update s.pc t RunPC.finished,
          log := s.log ++ [RunEvent.refReleased t] }

/-- Reachability in the run race: any interleaving of thread steps. -/
inductive RunReaches (s0 : RunState) : RunState → Prop where
  | refl : RunReaches s0 s0
  | step {s s' : RunState} {t : Nat} :
      RunReaches s0 s → RunStep t s s' → RunReaches s0 s'

/-- Number of task-set counter decrements recorded in a run-race log. -/
def decCount (l : List RunEvent) : Nat :=
  (l.filter fun e =>
    match e with
    | RunEvent.decTaskSet _ => true
    | _ => false).length

/-! ### Interleaving model of the then-chain race

One completing thread (which has already produced the result) is about to
publish Ready and drain (`run(int)` tail: `status_.notify(kReady)` then
`tryExecuteThenChain()`); `n` installer threads concurrently execute
`addToThenChainOrExecute`, continuation `i` belonging to installer `i`.
Atomic cuts: the status loads, the chain push CAS, and the drain's grab CAS
(the grabbed list is then private to the grabbing thread, which executes it
node by node via the functors' `next` links). -/

/-- Program counter of installer `i` in `addToThenChainOrExecute`. -/
inductive InstallerPC where
  | checkStatus   -- about to acquire-load `status`
  | pushNode      -- saw not-Ready; about to CAS-push its node
  | recheckStatus -- pushed; about to re-load `status`
  | draining      -- saw Ready after pushing; in `tryExecuteThenChain`
  | finished
deriving DecidableEq, Repr

/-- Program counter of the completing thread. -/
inductive CompleterPC where
  | publishReady  -- about to `status_.notify(kReady)`
  | draining      -- in `tryExecuteThenChain`
  | finished
deriving DecidableEq, Repr

/-- Global state of the then-chain race. -/
structure ThenState where
  ready : Bool
  chain : List Nat
  execs : List Nat
  ipc : Nat → InstallerPC
  cpc : CompleterPC

/-- Initial state: status not yet Ready, empty chain, installers `0..n-1`
active, the completer about to publish. -/
def thenInit (n : Nat) : ThenState :=
  { ready := false
    chain := []
    execs := []
    ipc := fun i => if i < n then InstallerPC.checkStatus else InstallerPC.finished
    cpc := CompleterPC.publishReady }

/-- One atomic step of the then-chain race. -/
inductive ThenStep : ThenState → ThenState → Prop where
  | checkReadyExec (i : Nat) (s : ThenState) :
      s.ipc i = InstallerPC.checkStatus → s.ready = true →
      ThenStep s
        { s with
          execs := s.execs ++ [i],
          ipc := Function.update s.ipc i InstallerPC.finished }
  | checkNotReady (i : Nat) (s : ThenState) :
      s.ipc i = InstallerPC.checkStatus → s.ready = false →
      ThenStep s { s with ipc := Function.update s.ipc i InstallerPC.pushNode }
  | pushStep (i : Nat) (s : ThenState) :
      s.ipc i = InstallerPC.pushNode →
      ThenStep s
        { s with
          chain := i :: s.chain,
          ipc := Function.update s.ipc i InstallerPC.recheckStatus }
  | recheckReady (i : Nat) (s : ThenState) :
      s.ipc i = InstallerPC.recheckStatus → s.ready = true →
      ThenStep s { s with ipc := Function.update s.ipc i InstallerPC.draining }
  | recheckNotReady (i : Nat) (s : ThenState) :
      s.ipc i = InstallerPC.recheckStatus → s.ready = false →
      ThenStep s { s with ipc := Function.update s.ipc i InstallerPC.finished }
  | installerGrab (i : Nat) (s : ThenState) :
      s.ipc i = InstallerPC.draining → s.chain ≠ [] →
      ThenStep s
        { s with
          chain := [],
          execs := s.execs ++ s.chain }
  | installerDrainDone (i : Nat) (s : ThenState) :
      s.ipc i = InstallerPC.draining → s.chain = [] →
      ThenStep s { s with ipc := Function.update s.ipc i InstallerPC.finished }
  | completerPublish (s : ThenState) :
      s.cpc = CompleterPC.publishReady →
      ThenStep s { s with ready := true, cpc := CompleterPC.draining }
  | completerGrab (s : ThenState) :
      s.cpc = CompleterPC.draining → s.chain ≠ [] →
      ThenStep s
        { s with
          chain := [],
          execs := s.execs ++ s.chain }
  | completerDrainDone (s : ThenState) :
      s.cpc = CompleterPC.draining → s.chain = [] →
      ThenStep s { s with cpc := CompleterPC.finished }

/-- Reachability in the then-chain race. -/
inductive ThenReaches (s0 : ThenState) : ThenState → Prop where
  | refl : ThenReaches s0 s0
  | step {s s' : ThenState} :
      ThenReaches s0 s → ThenStep s s' → ThenReaches s0 s'

/-- Phase/status correlation for the thread that won the CAS, indexed by its
program counter. -/
def winnerPhase (h0 : Bool) (pcw : RunPC) (s : RunState) : Prop :=
  match pcw with
  | RunPC.casTry => False
  | RunPC.runBody =>
      s.status = Status.running ∧ s.producerRuns = 0 ∧ decCount s.log = 0
  | RunPC.notifyPC =>
      s.status = Status.running ∧ s.producerRuns = 1 ∧ decCount s.log = 0
  | RunPC.counterPC =>
      s.status = Status.ready ∧ s.producerRuns = 1 ∧ decCount s.log = 0
  | RunPC.releasePC =>
      s.status = Status.ready ∧ s.producerRuns = 1
        ∧ decCount s.log = (if h0 then 1 else 0)
  | RunPC.finished =>
      s.status = Status.ready ∧ s.producerRuns = 1
        ∧ decCount s.log = (if h0 then 1 else 0)

/-- Inductive invariant of the run race started from
`runInit h0 t0 rc`. -/
structure RunInv (h0 : Bool) (t0 : Int) (s : RunState) : Prop where
  hasC : s.hasCounter = h0
  task : s.taskSet = t0 - decCount s.log
  winNone : s.winner = none →
      s.status = Status.notStarted ∧ s.log = [] ∧ s.producerRuns = 0
        ∧ ∀ u, s.pc u = RunPC.casTry
  statusNone : s.status = Status.notStarted → s.winner = none
  bodyOwner : ∀ u, s.pc u = RunPC.runBody ∨ s.pc u = RunPC.notifyPC
      ∨ s.pc u = RunPC.counterPC → s.winner = some u
  winPhase : ∀ w, s.winner = some w →
      RunEvent.casSucceed w ∈ s.log ∧ winnerPhase h0 (s.pc w) s
  attrib : ∀ u, RunEvent.casSucceed u ∈ s.log
      ∨ RunEvent.invokeProducer u ∈ s.log
      ∨ RunEvent.publishReady u ∈ s.log
      ∨ RunEvent.decTaskSet u ∈ s.log → s.winner = some u
  failNotWin : ∀ u, RunEvent.casFail u ∈ s.log → s.winner ≠ some u

/-- Inductive invariant of the then-chain race started from `thenInit n`. -/
structure ThenInv (n : Nat) (s : ThenState) : Prop where
  inactive : ∀ i, n ≤ i → s.ipc i = InstallerPC.finished
      ∧ s.chain.count i = 0 ∧ s.execs.count i = 0
  preCount : ∀ i, s.ipc i = InstallerPC.checkStatus
      ∨ s.ipc i = InstallerPC.pushNode →
      s.chain.count i = 0 ∧ s.execs.count i = 0
  postCount : ∀ i, i < n →
      s.ipc i = InstallerPC.recheckStatus ∨ s.ipc i = InstallerPC.draining
        ∨ s.ipc i = InstallerPC.finished →
      s.chain.count i + s.execs.count i = 1
  readyIffCpc : s.ready = false ↔ s.cpc = CompleterPC.publishReady
  drainReady : ∀ i, s.ipc i = InstallerPC.draining → s.ready = true
  quiesce : s.chain ≠ [] → s.cpc = CompleterPC.publishReady
      ∨ s.cpc = CompleterPC.draining
      ∨ ∃ i, s.ipc i = InstallerPC.recheckStatus
          ∨ s.ipc i = InstallerPC.draining
  execReady : s.execs ≠ [] → s.ready = true

/-- Concrete run-race trace for the C1 witness: initial state. -/
def c1Wit0 : RunState := runInit true 5 2

/-- C1 witness: state after thread 0 wins the CAS. -/
def c1Wit1 : RunState :=
  { c1Wit0 with
    status := Status.running,
    winner := some 0,
    pc := Function.update c1Wit0.pc 0 RunPC.runBody,
    log := c1Wit0.log ++ [RunEvent.casSucceed 0] }

/-- C1 witness: state after thread 1 loses the CAS. -/
def c1Wit2 : RunState :=
  { c1Wit1 with
    pc := Function.update c1Wit1.pc 1 RunPC.releasePC,
    log := c1Wit1.log ++ [RunEvent.casFail 1] }

/-- Concrete run-race trace for the C9 witness: initial state. -/
def c9Wit0 : RunState := runInit true 5 2

/-- C9 witness: after the CAS win of thread 0. -/
def c9Wit1 : RunState :=
  { c9Wit0 with
    status := Status.running,
    winner := some 0,
    pc := Function.update c9Wit0.pc 0 RunPC.runBody,
    log := c9Wit0.log ++ [RunEvent.casSucceed 0] }

/-- C9 witness: after the producer ran. -/
def c9Wit2 : RunState :=
  { c9Wit1 with
    producerRuns := c9Wit1.producerRuns + 1,
    pc := Function.update c9Wit1.pc 0 RunPC.notifyPC,
    log := c9Wit1.log ++ [RunEvent.invokeProducer 0] }

/-- C9 witness: after Ready is published. -/
def c9Wit3 : RunState :=
  { c9Wit2 with
    status := Status.ready,
    pc := Function.update c9Wit2.pc 0 RunPC.counterPC,
    log := c9Wit2.log ++ [RunEvent.publishReady 0] }

/-- C9 witness: after the task-set counter decrement. -/
def c9Wit4 : RunState :=
  { c9Wit3 with
    taskSet := c9Wit3.taskSet - 1,
    pc := Function.update c9Wit3.pc 0 RunPC.releasePC,
    log := c9Wit3.log ++ [RunEvent.decTaskSet 0] }

/-- C9 witness: after the reference release; the winner is finished. -/
def c9Wit5 : RunState :=
  { c9Wit4 with
    refCount := c9Wit4.refCount - 1,
    pc := Function.update c9Wit4.pc 0 RunPC.finished,
    log := c9Wit4.log ++ [RunEvent.refReleased 0] }

/-- Concrete then-race trace for the C4 witness: one installer. -/
def c4Wit0 : ThenState := thenInit 1

/-- C4 witness: completer publishes Ready. -/
def c4Wit1 : ThenState :=
  { c4Wit0 with ready := true, cpc := CompleterPC.draining }

/-- C4 witness: installer 0 sees Ready and executes directly. -/
def c4Wit2 : ThenState :=
  { c4Wit1 with
    execs := c4Wit1.execs ++ [0],
    ipc := Function.update c4Wit1.ipc 0 InstallerPC.finished }

/-- C4 witness: completer finds the chain empty and finishes. -/
def c4Wit3 : ThenState :=
  { c4Wit2 with cpc := CompleterPC.finished }

/-! ## Theorems -/

/-- Claim C2, counterexample: a core with `allow_inline = false` whose status
is still NotStarted.  `wait()` takes the inline-run path (the producer runs on
the waiting thread and populates the result slot) instead of blocking on the
completion event, because `wait()` passes the literal `true` to `waitCommon`;
the spec-worded `specWait` would block here. -/
theorem wait_allowInline_counterexample :
    (wait (Except.ok 0 : Except Unit Nat) (freshImpl false false 0)).1
        = WaitPath.ranInlineAttempt
    ∧ (wait (Except.ok 0 : Except Unit Nat) (freshImpl false false 0)).2.resultSlot
        = some 0
    ∧ (freshImpl false false 0 : FutureImpl Nat Unit).allowInline = false
    ∧ (freshImpl false false 0 : FutureImpl Nat Unit).status = Status.notStarted
    ∧ (specWait (Except.ok 0 : Except Unit Nat) (freshImpl false false 0)).1
        = WaitPath.blockedOnEvent := by
  decide

/-- Claim C2 amended: `wait()` on a Ready future returns immediately (with the
core untouched); otherwise it attempts to run the producer inline exactly when
the loaded status is still NotStarted, regardless of `allow_inline` (which only
the timed waits consult); it falls through to blocking on the completion event
exactly when the status is Running. -/
theorem wait_paths_amended {R E : Type} (p : Except E R) (c : FutureImpl R E) :
    ((wait p c).1 = WaitPath.returnedReady ↔ c.status = Status.ready)
    ∧ ((wait p c).1 = WaitPath.ranInlineAttempt ↔ c.status = Status.notStarted)
    ∧ ((wait p c).1 = WaitPath.blockedOnEvent ↔ c.status = Status.running)
    ∧ (c.status = Status.ready → (wait p c).2 = c) := by
  cases hs : c.status <;>
    simp [wait, waitCommon, runProtected, hs]

/-- Witness for `wait_paths_amended` at a concrete Ready core. -/
theorem wait_paths_amended_witness :
    (wait (Except.ok 3 : Except Unit Nat) (createValueFutureImplReady false 3)).2
      = createValueFutureImplReady false 3 :=
  (wait_paths_amended (Except.ok 3)
      (createValueFutureImplReady false 3)).2.2.2 (by decide)

/-- Claim C3: installing a continuation on a core whose status is already
Ready at the installer's load invokes the continuation functor synchronously
(the only state change is the logged execution, which schedules the downstream
impl) and inserts nothing into the then-chain. -/
theorem addToThenChain_ready_runs_directly {R E : Type} (n : Nat)
    (c : FutureImpl R E) (h : c.status = Status.ready) :
    addToThenChainOrExecute n c
        = { c with events := c.events ++ [Event.execThen n] }
    ∧ (addToThenChainOrExecute n c).thenChain = c.thenChain := by
  constructor
  · simp [addToThenChainOrExecute, h]
  · simp [addToThenChainOrExecute, h]

/-- Witness for `addToThenChain_ready_runs_directly` at a concrete Ready
core. -/
theorem addToThenChain_ready_runs_directly_witness :
    (addToThenChainOrExecute 7
        (createValueFutureImplReady false 1 : FutureImpl Nat Unit)).thenChain
      = (createValueFutureImplReady false 1 : FutureImpl Nat Unit).thenChain :=
  (addToThenChain_ready_runs_directly 7
      (createValueFutureImplReady false 1) (by decide)).2

/-- Claim C8: `createValueFutureImplReady v` (the core behind
`make_ready_future(v)`) is immediately ready, `get` returns exactly `v`, the
refcount is 1, and the event order shows the result slot written strictly
before the Ready store; the intermediate state after `setAsResult` indeed has
the slot populated while status is still NotStarted. -/
theorem make_ready_future_properties {R E : Type} (v : R) (aI : Bool)
    (p : Except E R) :
    readyLoad (createValueFutureImplReady aI v : FutureImpl R E) = true
    ∧ get p (createValueFutureImplReady aI v : FutureImpl R E)
        = some (Except.ok v)
    ∧ (createValueFutureImplReady aI v : FutureImpl R E).refCount = 1
    ∧ (createValueFutureImplReady aI v : FutureImpl R E).events
        = [Event.writeResult, Event.setReadyRelaxed]
    ∧ (setAsResult v (freshImpl aI false 0) : FutureImpl R E).resultSlot = some v
    ∧ (setAsResult v (freshImpl aI false 0) : FutureImpl R E).status
        = Status.notStarted := by
  refine ⟨?_, ?_, ?_, ?_, ?_, ?_⟩ <;>
    simp [readyLoad, createValueFutureImplReady, setReady, setAsResult,
      freshImpl, get, wait, waitCommon, result]

/-- Unfolding lemma for `applyOps`. -/
lemma applyOps_cons {R E : Type} (p : Except E R) (op : CoreOp)
    (ops : List CoreOp) (c : FutureImpl R E) :
    applyOps p (op :: ops) c = applyOps p ops (applyOp p op c) := rfl

/-- Any property preserved by every single op is preserved by op sequences. -/
lemma applyOps_invariant {R E : Type} (p : Except E R)
    (P : FutureImpl R E → Prop)
    (hstep : ∀ op c, P c → P (applyOp p op c)) :
    ∀ (ops : List CoreOp) (c : FutureImpl R E), P c → P (applyOps p ops c) := by
  intro ops
  induction ops with
  | nil => intro c h; exact h
  | cons op ops ih => intro c h; exact ih _ (hstep op c h)

/-- `decRefCountMaybeDestroy` never touches the result or exception slots. -/
lemma decRef_slots {R E : Type} (c : FutureImpl R E) :
    (decRefCountMaybeDestroy c).resultSlot = c.resultSlot
    ∧ (decRefCountMaybeDestroy c).exceptionSlot = c.exceptionSlot := by
  unfold decRefCountMaybeDestroy
  split <;> simp

/-- `run(int)` with a failing producer never writes the result slot and can
only set the exception slot to that failure. -/
lemma runProtected_error_slots {R E : Type} (e : E) (s : Status)
    (c : FutureImpl R E) :
    (runProtected (Except.error e) s c).2.resultSlot = c.resultSlot
    ∧ ((runProtected (Except.error e) s c).2.exceptionSlot = c.exceptionSlot
       ∨ (runProtected (Except.error e) s c).2.exceptionSlot = some e) := by
  unfold runProtected runToResult tryExecuteThenChain
  split
  · simp only []
    split <;> simp
  · simp

/-- `run(int)` with a succeeding producer never touches the exception slot. -/
lemma runProtected_ok_exception {R E : Type} (v : R) (s : Status)
    (c : FutureImpl R E) :
    (runProtected (Except.ok v) s c).2.exceptionSlot = c.exceptionSlot := by
  unfold runProtected runToResult tryExecuteThenChain
  split
  · simp only []
    split <;> simp
  · simp

/-- The state returned by `wait` is the state returned by `waitCommon`. -/
lemma wait_snd {R E : Type} (p : Except E R) (c : FutureImpl R E) :
    (wait p c).2 = (waitCommon p true c).2 := by
  unfold wait
  rcases waitCommon p true c with ⟨b, c2⟩
  cases b <;> simp

/-- `waitCommon` either leaves the state alone or hands it to `run(s)`. -/
lemma waitCommon_snd_cases {R E : Type} (p : Except E R) (b : Bool)
    (c : FutureImpl R E) :
    (waitCommon p b c).2 = c
    ∨ (waitCommon p b c).2 = (runProtected p c.status c).2 := by
  unfold waitCommon
  split
  · left; rfl
  · split
    · right; rfl
    · left; rfl

/-- Single-op preservation of the failing-producer slot invariant. -/
lemma applyOp_error_slots {R E : Type} (e : E) (op : CoreOp)
    (c : FutureImpl R E)
    (h1 : c.resultSlot = none)
    (h2 : c.exceptionSlot = none ∨ c.exceptionSlot = some e) :
    (applyOp (Except.error e) op c).resultSlot = none
    ∧ ((applyOp (Except.error e) op c).exceptionSlot = none
       ∨ (applyOp (Except.error e) op c).exceptionSlot = some e) := by
  have hrp : ∀ s : Status,
      (runProtected (Except.error e) s c).2.resultSlot = none
      ∧ ((runProtected (Except.error e) s c).2.exceptionSlot = none
         ∨ (runProtected (Except.error e) s c).2.exceptionSlot = some e) := by
    intro s
    have hs := runProtected_error_slots e s c
    refine ⟨hs.1.trans h1, ?_⟩
    rcases hs.2 with hx | hx
    · rw [hx]; exact h2
    · right; exact hx
  cases op with
  | runOp =>
    have hd := decRef_slots (runProtected (Except.error e) Status.notStarted c).2
    have := hrp Status.notStarted
    simp only [applyOp, run]
    rw [hd.1, hd.2]
    exact this
  | waitOp =>
    simp only [applyOp]
    rw [wait_snd]
    rcases waitCommon_snd_cases (Except.error e) true c with hw | hw
    · rw [hw]; exact ⟨h1, h2⟩
    · rw [hw]; exact hrp c.status
  | addThen n =>
    simp only [applyOp, addToThenChainOrExecute, tryExecuteThenChain]
    split <;> exact ⟨h1, h2⟩
  | incRefOp => exact ⟨h1, h2⟩
  | decRefOp =>
    have hd := decRef_slots c
    simp only [applyOp]
    rw [hd.1, hd.2]
    exact ⟨h1, h2⟩

/-- Single-op preservation of "no exception captured" for an ok producer. -/
lemma applyOp_ok_exception {R E : Type} (v : R) (op : CoreOp)
    (c : FutureImpl R E) (h : c.exceptionSlot = none) :
    (applyOp (Except.ok v) op c).exceptionSlot = none := by
  cases op with
  | runOp =>
    have hs := runProtected_ok_exception v Status.notStarted c
    have hd := decRef_slots (runProtected (Except.ok v) Status.notStarted c).2
    simp only [applyOp, run]
    rw [hd.2, hs, h]
  | waitOp =>
    simp only [applyOp]
    rw [wait_snd]
    rcases waitCommon_snd_cases (Except.ok v) true c with hw | hw
    · rw [hw]; exact h
    · rw [hw, runProtected_ok_exception v c.status c]; exact h
  | addThen n =>
    simp only [applyOp, addToThenChainOrExecute, tryExecuteThenChain]
    split <;> exact h
  | incRefOp => exact h
  | decRefOp =>
    have hd := decRef_slots c
    simp only [applyOp]
    rw [hd.2]
    exact h

/-- `wait` with the same failing producer leaves a captured failure in
place. -/
lemma wait_keeps_exception {R E : Type} (e : E) (c : FutureImpl R E)
    (h : c.exceptionSlot = some e) :
    (wait (Except.error e) c).2.exceptionSlot = some e := by
  rw [wait_snd]
  rcases waitCommon_snd_cases (Except.error e) true c with hw | hw
  · rw [hw]; exact h
  · rw [hw]
    rcases (runProtected_error_slots e c.status c).2 with hx | hx
    · rw [hx]; exact h
    · exact hx

/-- Claim C6: once the producer signals a failure, the failure is captured in
the core, the result slot is never populated — under any sequence of core
operations from construction on, a captured failure and a populated result
slot are mutually exclusive — and every later `result()`/`get()` re-signals
that same captured failure instead of returning a value. -/
theorem producer_failure_capture {R E : Type} (e : E) (p : Except E R)
    (ops : List CoreOp) (a hC : Bool) (t : Int) :
    (applyOps (Except.error e) ops (freshImpl a hC t : FutureImpl R E)).resultSlot
        = none
    ∧ ((applyOps (Except.error e) ops
          (freshImpl a hC t : FutureImpl R E)).exceptionSlot = none
       ∨ (applyOps (Except.error e) ops
            (freshImpl a hC t : FutureImpl R E)).exceptionSlot = some e)
    ∧ ((applyOps (Except.error e) ops
          (freshImpl a hC t : FutureImpl R E)).exceptionSlot = some e →
        result (applyOps (Except.error e) ops (freshImpl a hC t : FutureImpl R E))
            = some (Except.error e)
        ∧ get (Except.error e)
            (applyOps (Except.error e) ops (freshImpl a hC t : FutureImpl R E))
            = some (Except.error e))
    ∧ ¬((applyOps p ops (freshImpl a hC t) : FutureImpl R E).resultSlot.isSome
        ∧ (applyOps p ops (freshImpl a hC t : FutureImpl R E)).exceptionSlot.isSome) := by
  have hmain :
      (applyOps (Except.error e) ops (freshImpl a hC t) : FutureImpl R E).resultSlot
          = none
      ∧ ((applyOps (Except.error e) ops
            (freshImpl a hC t : FutureImpl R E)).exceptionSlot = none
         ∨ (applyOps (Except.error e) ops
              (freshImpl a hC t : FutureImpl R E)).exceptionSlot = some e) := by
    refine applyOps_invariant (Except.error e)
      (fun c => c.resultSlot = none
        ∧ (c.exceptionSlot = none ∨ c.exceptionSlot = some e))
      (fun op c hc => applyOp_error_slots e op c hc.1 hc.2) ops _ ?_
    simp [freshImpl]
  refine ⟨hmain.1, hmain.2, ?_, ?_⟩
  · intro hexc
    constructor
    · simp [result, hexc]
    · simp [get, result,
        wait_keeps_exception e (applyOps (Except.error e) ops (freshImpl a hC t))
          hexc]
  · cases p with
    | ok v =>
      have hnone :
          (applyOps (Except.ok v) ops
            (freshImpl a hC t) : FutureImpl R E).exceptionSlot = none := by
        refine applyOps_invariant (Except.ok v)
          (fun c => c.exceptionSlot = none)
          (fun op c hc => applyOp_ok_exception v op c hc) ops _ ?_
        simp [freshImpl]
      simp [hnone]
    | error e2 =>
      have hres :
          (applyOps (Except.error e2) ops
            (freshImpl a hC t) : FutureImpl R E).resultSlot = none := by
        refine (applyOps_invariant (Except.error e2)
          (fun c => c.resultSlot = none
            ∧ (c.exceptionSlot = none ∨ c.exceptionSlot = some e2))
          (fun op c hc => applyOp_error_slots e2 op c hc.1 hc.2) ops _ ?_).1
        simp [freshImpl]
      simp [hres]

/-- Witness for `producer_failure_capture`: run the failing producer by the
scheduled `run()`; `result`/`get` then re-signal the failure. -/
theorem producer_failure_capture_witness :
    result (applyOps (Except.error ()) [CoreOp.runOp]
        (freshImpl true false 0 : FutureImpl Nat Unit))
      = some (Except.error ()) :=
  ((producer_failure_capture () (Except.ok 0) [CoreOp.runOp]
      true false 0).2.2.1 (by decide)).1

/-- Claim C10, counterexample: copy-assigning from a null handle onto a handle
that still owns a core does touch a reference count — the destination's old
core is released (here its count drops from 5 to 4), so "no reference count is
touched" fails as stated, although the destination does become invalid. -/
theorem null_copy_counterexample :
    valid (copyAssign ⟨some 0⟩ ⟨none⟩ ⟨[5], []⟩).1 = false
    ∧ (copyAssign ⟨some 0⟩ ⟨none⟩ ⟨[5], []⟩).2.refCounts = [4]
    ∧ (⟨[5], []⟩ : CoreHeap).refCounts = [5] := by
  decide

/-- Claim C10 amended: copy-construction from a null handle yields an invalid
handle and touches no reference count; destroying an invalid handle performs
no deallocation; copy-assignment from a null handle yields an invalid handle
and increments nothing — it is a complete no-op when the destination was also
null, and otherwise only releases the destination's previous core; a moved-from
handle is null. -/
theorem null_copy_amended (dst : FutureBaseHandle) (h : CoreHeap) :
    copyConstruct ⟨none⟩ h = (⟨none⟩, h)
    ∧ destructHandle ⟨none⟩ h = h
    ∧ valid (copyAssign dst ⟨none⟩ h).1 = false
    ∧ (dst.impl = none → copyAssign dst ⟨none⟩ h = (dst, h))
    ∧ (∀ q, dst.impl = some q →
        (copyAssign dst ⟨none⟩ h).2 = heapDecRefMaybeDestroy q h)
    ∧ (moveConstruct dst).2.impl = none := by
  refine ⟨rfl, rfl, ?_, ?_, ?_, rfl⟩
  · cases hd : dst.impl <;> simp [copyAssign, valid, hd]
  · intro hd
    cases dst
    simp_all [copyAssign]
  · intro q hd
    simp [copyAssign, hd]

/-- Witness for `null_copy_amended` at concrete handles and heap. -/
theorem null_copy_amended_witness :
    (copyAssign ⟨some 0⟩ ⟨none⟩ ⟨[2], []⟩).2 = heapDecRefMaybeDestroy 0 ⟨[2], []⟩
    ∧ copyAssign ⟨none⟩ ⟨none⟩ ⟨[2], []⟩ = (⟨none⟩, (⟨[2], []⟩ : CoreHeap)) :=
  ⟨(null_copy_amended ⟨some 0⟩ ⟨[2], []⟩).2.2.2.2.1 0 rfl,
   (null_copy_amended ⟨none⟩ ⟨[2], []⟩).2.2.2.1 rfl⟩

/-- Draining `os` fan-in continuations with more than `os.length` inputs
outstanding just counts down, never firing `f`. -/
lemma completeInputs_partial {E T : Type} :
    ∀ (os : List (Except E T)) (m fd : Nat) (fs : Bool), os.length < m →
      completeInputs os ⟨m, fs, fd⟩ = ⟨m - os.length, fs, fd⟩ := by
  intro os
  induction os with
  | nil =>
    intro m fd fs _
    simp [completeInputs]
  | cons o os ih =>
    intro m fd fs h
    have hm : ¬m = 1 := by
      simp only [List.length_cons] at h
      omega
    have hstep : completeInputs (o :: os) (⟨m, fs, fd⟩ : WhenAllShared)
        = completeInputs os (fanInContinuation o ⟨m, fs, fd⟩) := rfl
    have hfan : fanInContinuation o (⟨m, fs, fd⟩ : WhenAllShared)
        = ⟨m - 1, fs, fd⟩ := by
      simp [fanInContinuation, hm]
    rw [hstep, hfan, ih (m - 1) fd fs (by simp only [List.length_cons] at h; omega)]
    have harith : m - 1 - os.length = m - (o :: os).length := by
      simp only [List.length_cons]
      omega
    rw [harith]

/-- Draining exactly as many fan-in continuations as there are outstanding
inputs fires `f` exactly once, at the final decrement. -/
lemma completeInputs_full {E T : Type} :
    ∀ (os : List (Except E T)) (fs : Bool) (fd : Nat), os ≠ [] →
      completeInputs os ⟨os.length, fs, fd⟩ = ⟨0, fs, fd + 1⟩ := by
  intro os
  induction os with
  | nil => intro fs fd h; exact absurd rfl h
  | cons o os ih =>
    intro fs fd _
    by_cases hnil : os = []
    · subst hnil
      simp [completeInputs, fanInContinuation]
    · have hne : ¬(o :: os).length = 1 := by
        cases os with
        | nil => exact absurd rfl hnil
        | cons a b => simp
      have hstep : completeInputs (o :: os)
            (⟨(o :: os).length, fs, fd⟩ : WhenAllShared)
          = completeInputs os (fanInContinuation o ⟨(o :: os).length, fs, fd⟩) :=
        rfl
      have hfan : fanInContinuation o
            (⟨(o :: os).length, fs, fd⟩ : WhenAllShared)
          = ⟨os.length, fs, fd⟩ := by
        have h1 : ¬os.length + 1 = 1 := by
          cases os with
          | nil => exact absurd rfl hnil
          | cons a b => simp
        simp [fanInContinuation, List.length_cons, h1]
      rw [hstep, hfan, ih fs fd hnil]

/-- `get` on a core whose scheduled `run()` has executed the producer returns
exactly the producer's outcome (value or re-signalled failure). -/
lemma result_completedCore {R E : Type} (p : Except E R) :
    result (completedCore p : FutureImpl R E) = some p := by
  cases p <;>
    simp [completedCore, run, runProtected, runToResult, tryExecuteThenChain,
      decRefCountMaybeDestroy, result, freshImpl]

/-- Claim C5: in both `when_all` forms the intercepted thunk is stored into
the shared state before any input continuation is installed (program-order
traces); each fan-in continuation decrements `remaining` by exactly one; the
continuation that observes 1 at its fetch-sub — and only it — fires `f`; and
over a full set of completions `f` fires exactly once, at the last one, with
no firing after any proper prefix. -/
theorem when_all_fires_once {E T : Type} (n : Nat)
    (outcomes : List (Except E T)) (hlen : outcomes.length = n) (hn : 0 < n) :
    ((whenAllVecTrace n).take 2
        = [WhenAllEvent.constructOutputFuture, WhenAllEvent.storeF]
      ∧ ∀ ev ∈ (whenAllVecTrace n).drop 2,
          ∃ i, ev = WhenAllEvent.installContinuation i)
    ∧ ((whenAllTupleTrace n).take 2
        = [WhenAllEvent.constructOutputFuture, WhenAllEvent.storeF]
      ∧ ∀ ev ∈ (whenAllTupleTrace n).drop 2,
          ∃ i, ev = WhenAllEvent.installContinuation i)
    ∧ (∀ (o : Except E T) (sh : WhenAllShared), 0 < sh.count →
        (fanInContinuation o sh).count + 1 = sh.count)
    ∧ (∀ (o : Except E T) (sh : WhenAllShared),
        (fanInContinuation o sh).fFired
          = sh.fFired + (if sh.count = 1 then 1 else 0))
    ∧ (completeInputs outcomes (whenAllInit n)).fFired = 1
    ∧ (completeInputs outcomes (whenAllInit n)).count = 0
    ∧ (∀ k, k < n →
        (completeInputs (outcomes.take k) (whenAllInit n)).fFired = 0) := by
  have hne : outcomes ≠ [] := by
    intro hO
    rw [hO] at hlen
    simp at hlen
    omega
  have hinit : whenAllInit n = (⟨outcomes.length, true, 0⟩ : WhenAllShared) := by
    simp [whenAllInit, hlen]
  have hfull : completeInputs outcomes (whenAllInit n)
      = (⟨0, true, 1⟩ : WhenAllShared) := by
    rw [hinit, completeInputs_full outcomes true 0 hne]
  refine ⟨⟨?_, ?_⟩, ⟨?_, ?_⟩, ?_, ?_, ?_, ?_, ?_⟩
  · simp [whenAllVecTrace]
  · intro ev hev
    simp only [whenAllVecTrace, List.cons_append, List.nil_append,
      List.drop_succ_cons, List.drop_zero, List.mem_map] at hev
    obtain ⟨i, _, rfl⟩ := hev
    exact ⟨i, rfl⟩
  · simp [whenAllTupleTrace]
  · intro ev hev
    simp only [whenAllTupleTrace, List.cons_append, List.nil_append,
      List.drop_succ_cons, List.drop_zero, List.mem_map] at hev
    obtain ⟨i, _, rfl⟩ := hev
    exact ⟨i, rfl⟩
  · intro o sh h
    have hc : (fanInContinuation o sh).count = sh.count - 1 := by
      by_cases h1 : sh.count = 1
      · simp [fanInContinuation, h1]
      · simp [fanInContinuation, h1]
    rw [hc]
    omega
  · intro o sh
    by_cases h1 : sh.count = 1
    · simp [fanInContinuation, h1]
    · simp [fanInContinuation, h1]
  · rw [hfull]
  · rw [hfull]
  · intro k hk
    have hkl : (outcomes.take k).length = k := by
      rw [List.length_take]
      omega
    have hp := completeInputs_partial (outcomes.take k) n 0 true
      (by rw [hkl]; exact hk)
    have hini : whenAllInit n = (⟨n, true, 0⟩ : WhenAllShared) := rfl
    rw [hini, hp]

/-- Witness for `when_all_fires_once` on two concrete inputs, one failing. -/
theorem when_all_fires_once_witness :
    (completeInputs [Except.ok 1, Except.error ()] (whenAllInit 2)).fFired = 1
    ∧ (completeInputs ([Except.ok 1, Except.error ()].take 1)
        (whenAllInit 2)).fFired = 0 :=
  ⟨(when_all_fires_once 2 [Except.ok 1, Except.error ()] rfl
      (by decide)).2.2.2.2.1,
   (when_all_fires_once 2 [Except.ok 1, Except.error ()] rfl
      (by decide)).2.2.2.2.2.2 1 (by decide)⟩

/-- Claim C7: the fan-in continuation's effect is independent of whether its
input completed with a value or a failure (it decrements regardless), the
aggregate fires only after all inputs have resolved — never after a proper
prefix, even one containing a failure — and a component's failure surfaces
exactly when `get` is applied to that element of the aggregate. -/
theorem when_all_no_short_circuit {E T : Type} (n j : Nat)
    (outcomes : List (Except E T)) (e : E)
    (hlen : outcomes.length = n) (hn : 0 < n)
    (hj : outcomes.get? j = some (Except.error e)) :
    (∀ (o o2 : Except E T) (sh : WhenAllShared),
        fanInContinuation o sh = fanInContinuation o2 sh)
    ∧ (completeInputs outcomes (whenAllInit n)).fFired = 1
    ∧ (completeInputs outcomes (whenAllInit n)).count = 0
    ∧ (∀ k, k < n →
        (completeInputs (outcomes.take k) (whenAllInit n)).fFired = 0)
    ∧ (∀ (i : Fin outcomes.length),
        result (completedCore (outcomes.get i) : FutureImpl T E)
          = some (outcomes.get i))
    ∧ (∃ hjl : j < outcomes.length,
        outcomes.get ⟨j, hjl⟩ = Except.error e
        ∧ result (completedCore (outcomes.get ⟨j, hjl⟩) : FutureImpl T E)
            = some (Except.error e)) := by
  have hne : outcomes ≠ [] := by
    intro hO
    rw [hO] at hlen
    simp at hlen
    omega
  have hinit : whenAllInit n = (⟨outcomes.length, true, 0⟩ : WhenAllShared) := by
    simp [whenAllInit, hlen]
  have hfull : completeInputs outcomes (whenAllInit n)
      = (⟨0, true, 1⟩ : WhenAllShared) := by
    rw [hinit, completeInputs_full outcomes true 0 hne]
  obtain ⟨hjl, hje⟩ := List.get?_eq_some.mp hj
  refine ⟨fun o o2 sh => rfl, ?_, ?_, ?_, ?_, ⟨hjl, hje, ?_⟩⟩
  · rw [hfull]
  · rw [hfull]
  · intro k hk
    have hkl : (outcomes.take k).length = k := by
      rw [List.length_take]
      omega
    have hp := completeInputs_partial (outcomes.take k) n 0 true
      (by rw [hkl]; exact hk)
    have hini : whenAllInit n = (⟨n, true, 0⟩ : WhenAllShared) := rfl
    rw [hini, hp]
  · intro i
    exact result_completedCore _
  · rw [hje]
    exact result_completedCore _

/-- Witness for `when_all_no_short_circuit` with a concrete failing input. -/
theorem when_all_no_short_circuit_witness :
    (completeInputs [Except.ok 1, Except.error ()] (whenAllInit 2)).count = 0 :=
  (when_all_no_short_circuit 2 1 [Except.ok 1, Except.error ()] () rfl
      (by decide) rfl).2.2.1

/-- Counting is additive over log concatenation. -/
lemma decCount_append (l1 l2 : List RunEvent) :
    decCount (l1 ++ l2) = decCount l1 + decCount l2 := by
  simp [decCount, List.filter_append]

/-- Membership in `l ++ [b]` for an element distinct from `b`. -/
lemma mem_append_singleton_ne {α : Type} {a b : α} {l : List α}
    (h : a ∈ l ++ [b]) (hne : a ≠ b) : a ∈ l := by
  rcases List.mem_append.mp h with h2 | h2
  · exact h2
  · rw [List.mem_singleton] at h2
    exact absurd h2 hne

/-- `winnerPhase` only looks at `status`, `producerRuns` and the decrement
count of the log. -/
lemma winnerPhase_ext {h0 : Bool} {p : RunPC} {s s' : RunState}
    (hmain : winnerPhase h0 p s)
    (h1 : s'.status = s.status) (h2 : s'.producerRuns = s.producerRuns)
    (h3 : decCount s'.log = decCount s.log) : winnerPhase h0 p s' := by
  cases p
  · exact hmain
  all_goals exact ⟨h1.trans hmain.1, h2.trans hmain.2.1, h3.trans hmain.2.2⟩

/-- The invariant holds initially. -/
lemma runInv_init (h0 : Bool) (t0 : Int) (rc : Nat) :
    RunInv h0 t0 (runInit h0 t0 rc) := by
  refine ⟨rfl, ?_, ?_, ?_, ?_, ?_, ?_, ?_⟩
  · simp [runInit, decCount]
  · intro _
    exact ⟨rfl, rfl, rfl, fun u => rfl⟩
  · intro _
    rfl
  · intro u hu
    rcases hu with h | h | h <;> simp [runInit] at h
  · intro w hw
    simp [runInit] at hw
  · intro u hu
    simp [runInit] at hu
  · intro u hu
    simp [runInit] at hu

/-- The invariant is preserved by every step of the run race. -/
lemma runInv_step {h0 : Bool} {t0 : Int} {t : Nat} {s s' : RunState}
    (inv : RunInv h0 t0 s) (hstep : RunStep t s s') : RunInv h0 t0 s' := by
  cases hstep with
  | casWin hpc hst =>
    obtain ⟨hs1, hs2, hs3, hs4⟩ := inv.winNone (inv.statusNone hst)
    refine ⟨inv.hasC, ?_, ?_, ?_, ?_, ?_, ?_, ?_⟩
    · dsimp only
      rw [decCount_append]
      have hz : decCount [RunEvent.casSucceed t] = 0 := rfl
      rw [hz]
      simpa using inv.task
    · intro h
      dsimp only at h
      simp at h
    · intro h
      dsimp only at h
      exact absurd h (by decide)
    · intro u hu
      dsimp only at hu ⊢
      by_cases hut : u = t
      · subst hut
        rfl
      · rw [Function.update_noteq hut] at hu
        rw [hs4 u] at hu
        rcases hu with h | h | h <;> exact absurd h (by decide)
    · intro w hw
      dsimp only at hw ⊢
      have hwt : t = w := by
        injection hw
      subst hwt
      constructor
      · simp
      · rw [Function.update_same]
        refine ⟨rfl, hs3, ?_⟩
        show decCount (s.log ++ [RunEvent.casSucceed t]) = 0
        rw [hs2]
        rfl
    · intro u hu
      dsimp only at hu ⊢
      rw [hs2] at hu
      simp at hu
      subst hu
      rfl
    · intro u hu
      dsimp only at hu ⊢
      rw [hs2] at hu
      simp at hu
  | casLose hpc hne =>
    have hwin : ∃ w, s.winner = some w := by
      cases hw : s.winner with
      | none => exact absurd (inv.winNone hw).1 hne
      | some w => exact ⟨w, rfl⟩
    obtain ⟨w, hw⟩ := hwin
    have hwt : w ≠ t := by
      intro h
      subst h
      have h2 := (inv.winPhase w hw).2
      rw [hpc] at h2
      exact h2
    refine ⟨inv.hasC, ?_, ?_, ?_, ?_, ?_, ?_, ?_⟩
    · dsimp only
      rw [decCount_append]
      have hz : decCount [RunEvent.casFail t] = 0 := rfl
      rw [hz]
      simpa using inv.task
    · intro h
      dsimp only at h
      rw [hw] at h
      simp at h
    · intro h
      dsimp only at h
      exact absurd (inv.statusNone h) (by rw [hw]; simp)
    · intro u hu
      dsimp only at hu ⊢
      by_cases hut : u = t
      · subst hut
        rw [Function.update_same] at hu
        rcases hu with h | h | h <;> exact absurd h (by decide)
      · rw [Function.update_noteq hut] at hu
        exact inv.bodyOwner u hu
    · intro w2 hw2
      dsimp only at hw2 ⊢
      have hmem := (inv.winPhase w2 hw2).1
      have hw2t : w2 ≠ t := by
        intro h
        subst h
        have h2 := (inv.winPhase w2 hw2).2
        rw [hpc] at h2
        exact h2
      refine ⟨List.mem_append_left _ hmem, ?_⟩
      rw [Function.update_noteq hw2t]
      refine winnerPhase_ext (inv.winPhase w2 hw2).2 rfl rfl ?_
      rw [decCount_append]
      rfl
    · intro u hu
      dsimp only at hu ⊢
      rcases hu with h | h | h | h
      · exact inv.attrib u (Or.inl (mem_append_singleton_ne h (by simp)))
      · exact inv.attrib u
          (Or.inr (Or.inl (mem_append_singleton_ne h (by simp))))
      · exact inv.attrib u
          (Or.inr (Or.inr (Or.inl (mem_append_singleton_ne h (by simp)))))
      · exact inv.attrib u
          (Or.inr (Or.inr (Or.inr (mem_append_singleton_ne h (by simp)))))
    · intro u hu
      dsimp only at hu ⊢
      rcases List.mem_append.mp hu with h | h
      · exact inv.failNotWin u h
      · rw [List.mem_singleton] at h
        injection h with h2
        subst h2
        rw [hw]
        intro h3
        injection h3 with h4
        exact hwt h4
  | producerStep hpc =>
    have htw : s.winner = some t := inv.bodyOwner t (Or.inl hpc)
    have hph := (inv.winPhase t htw).2
    rw [hpc] at hph
    obtain ⟨hst, hpr, hdc⟩ := hph
    refine ⟨inv.hasC, ?_, ?_, ?_, ?_, ?_, ?_, ?_⟩
    · dsimp only
      rw [decCount_append]
      have hz : decCount [RunEvent.invokeProducer t] = 0 := rfl
      rw [hz]
      simpa using inv.task
    · intro h
      dsimp only at h
      rw [htw] at h
      simp at h
    · intro h
      dsimp only at h
      rw [hst] at h
      exact absurd h (by decide)
    · intro u hu
      dsimp only at hu ⊢
      by_cases hut : u = t
      · subst hut
        exact htw
      · rw [Function.update_noteq hut] at hu
        exact inv.bodyOwner u hu
    · intro w hw
      dsimp only at hw ⊢
      have hwt : t = w := by
        rw [htw] at hw
        injection hw
      subst hwt
      refine ⟨List.mem_append_left _ (inv.winPhase t htw).1, ?_⟩
      rw [Function.update_same]
      refine ⟨hst, by rw [hpr], ?_⟩
      show decCount (s.log ++ [RunEvent.invokeProducer t]) = 0
      rw [decCount_append, hdc]
      rfl
    · intro u hu
      dsimp only at hu ⊢
      rcases hu with h | h | h | h
      · exact inv.attrib u (Or.inl (mem_append_singleton_ne h (by simp)))
      · rcases List.mem_append.mp h with h2 | h2
        · exact inv.attrib u (Or.inr (Or.inl h2))
        · rw [List.mem_singleton] at h2
          injection h2 with h3
          subst h3
          exact htw
      · exact inv.attrib u
          (Or.inr (Or.inr (Or.inl (mem_append_singleton_ne h (by simp)))))
      · exact inv.attrib u
          (Or.inr (Or.inr (Or.inr (mem_append_singleton_ne h (by simp)))))
    · intro u hu
      dsimp only at hu ⊢
      exact inv.failNotWin u (mem_append_singleton_ne hu (by simp))
  | notifyStep hpc =>
    have htw : s.winner = some t := inv.bodyOwner t (Or.inr (Or.inl hpc))
    have hph := (inv.winPhase t htw).2
    rw [hpc] at hph
    obtain ⟨hst, hpr, hdc⟩ := hph
    refine ⟨inv.hasC, ?_, ?_, ?_, ?_, ?_, ?_, ?_⟩
    · dsimp only
      rw [decCount_append]
      have hz : decCount [RunEvent.publishReady t] = 0 := rfl
      rw [hz]
      simpa using inv.task
    · intro h
      dsimp only at h
      rw [htw] at h
      simp at h
    · intro h
      dsimp only at h
      exact absurd h (by decide)
    · intro u hu
      dsimp only at hu ⊢
      by_cases hut : u = t
      · subst hut
        exact htw
      · rw [Function.update_noteq hut] at hu
        exact inv.bodyOwner u hu
    · intro w hw
      dsimp only at hw ⊢
      have hwt : t = w := by
        rw [htw] at hw
        injection hw
      subst hwt
      refine ⟨List.mem_append_left _ (inv.winPhase t htw).1, ?_⟩
      rw [Function.update_same]
      refine ⟨rfl, hpr, ?_⟩
      show decCount (s.log ++ [RunEvent.publishReady t]) = 0
      rw [decCount_append, hdc]
      rfl
    · intro u hu
      dsimp only at hu ⊢
      rcases hu with h | h | h | h
      · exact inv.attrib u (Or.inl (mem_append_singleton_ne h (by simp)))
      · exact inv.attrib u
          (Or.inr (Or.inl (mem_append_singleton_ne h (by simp))))
      · rcases List.mem_append.mp h with h2 | h2
        · exact inv.attrib u (Or.inr (Or.inr (Or.inl h2)))
        · rw [List.mem_singleton] at h2
          injection h2 with h3
          subst h3
          exact htw
      · exact inv.attrib u
          (Or.inr (Or.inr (Or.inr (mem_append_singleton_ne h (by simp)))))
    · intro u hu
      dsimp only at hu ⊢
      exact inv.failNotWin u (mem_append_singleton_ne hu (by simp))
  | counterDec hpc hcnt =>
    have htw : s.winner = some t := inv.bodyOwner t (Or.inr (Or.inr hpc))
    have hph := (inv.winPhase t htw).2
    rw [hpc] at hph
    obtain ⟨hst, hpr, hdc⟩ := hph
    have h0true : h0 = true := by
      rw [inv.hasC] at hcnt
      exact hcnt
    refine ⟨inv.hasC, ?_, ?_, ?_, ?_, ?_, ?_, ?_⟩
    · dsimp only
      rw [decCount_append]
      have hz : decCount [RunEvent.decTaskSet t] = 1 := rfl
      rw [hz, inv.task, hdc]
      simp
    · intro h
      dsimp only at h
      rw [htw] at h
      simp at h
    · intro h
      dsimp only at h
      rw [hst] at h
      exact absurd h (by decide)
    · intro u hu
      dsimp only at hu ⊢
      by_cases hut : u = t
      · subst hut
        rw [Function.update_same] at hu
        rcases hu with h | h | h <;> exact absurd h (by decide)
      · rw [Function.update_noteq hut] at hu
        exact inv.bodyOwner u hu
    · intro w hw
      dsimp only at hw ⊢
      have hwt : t = w := by
        rw [htw] at hw
        injection hw
      subst hwt
      refine ⟨List.mem_append_left _ (inv.winPhase t htw).1, ?_⟩
      rw [Function.update_same]
      refine ⟨hst, hpr, ?_⟩
      show decCount (s.log ++ [RunEvent.decTaskSet t]) = if h0 then 1 else 0
      rw [decCount_append, hdc, h0true]
      rfl
    · intro u hu
      dsimp only at hu ⊢
      rcases hu with h | h | h | h
      · exact inv.attrib u (Or.inl (mem_append_singleton_ne h (by simp)))
      · exact inv.attrib u
          (Or.inr (Or.inl (mem_append_singleton_ne h (by simp))))
      · exact inv.attrib u
          (Or.inr (Or.inr (Or.inl (mem_append_singleton_ne h (by simp)))))
      · rcases List.mem_append.mp h with h2 | h2
        · exact inv.attrib u (Or.inr (Or.inr (Or.inr h2)))
        · rw [List.mem_singleton] at h2
          injection h2 with h3
          subst h3
          exact htw
    · intro u hu
      dsimp only at hu ⊢
      exact inv.failNotWin u (mem_append_singleton_ne hu (by simp))
  | counterSkip hpc hcnt =>
    have htw : s.winner = some t := inv.bodyOwner t (Or.inr (Or.inr hpc))
    have hph := (inv.winPhase t htw).2
    rw [hpc] at hph
    obtain ⟨hst, hpr, hdc⟩ := hph
    have h0false : h0 = false := by
      rw [inv.hasC] at hcnt
      exact hcnt
    refine ⟨inv.hasC, ?_, ?_, ?_, ?_, ?_, ?_, ?_⟩
    · dsimp only
      exact inv.task
    · intro h
      dsimp only at h
      rw [htw] at h
      simp at h
    · intro h
      dsimp only at h
      rw [hst] at h
      exact absurd h (by decide)
    · intro u hu
      dsimp only at hu ⊢
      by_cases hut : u = t
      · subst hut
        rw [Function.update_same] at hu
        rcases hu with h | h | h <;> exact absurd h (by decide)
      · rw [Function.update_noteq hut] at hu
        exact inv.bodyOwner u hu
    · intro w hw
      dsimp only at hw ⊢
      have hwt : t = w := by
        rw [htw] at hw
        injection hw
      subst hwt
      refine ⟨(inv.winPhase t htw).1, ?_⟩
      rw [Function.update_same]
      refine ⟨hst, hpr, ?_⟩
      rw [hdc, h0false]
      rfl
    · intro u hu
      dsimp only at hu ⊢
      exact inv.attrib u hu
    · intro u hu
      dsimp only at hu ⊢
      exact inv.failNotWin u hu
  | releaseStep hpc =>
    refine ⟨inv.hasC, ?_, ?_, ?_, ?_, ?_, ?_, ?_⟩
    · dsimp only
      rw [decCount_append]
      have hz : decCount [RunEvent.refReleased t] = 0 := rfl
      rw [hz]
      simpa using inv.task
    · intro h
      dsimp only at h
      obtain ⟨_, _, _, hall⟩ := inv.winNone h
      have h2 := hall t
      rw [hpc] at h2
      exact absurd h2 (by decide)
    · intro h
      dsimp only at h
      obtain ⟨_, _, _, hall⟩ := inv.winNone (inv.statusNone h)
      have h2 := hall t
      rw [hpc] at h2
      exact absurd h2 (by decide)
    · intro u hu
      dsimp only at hu ⊢
      by_cases hut : u = t
      · subst hut
        rw [Function.update_same] at hu
        rcases hu with h | h | h <;> exact absurd h (by decide)
      · rw [Function.update_noteq hut] at hu
        exact inv.bodyOwner u hu
    · intro w hw
      dsimp only at hw ⊢
      refine ⟨List.mem_append_left _ (inv.winPhase w hw).1, ?_⟩
      by_cases hwt : w = t
      · subst hwt
        rw [Function.update_same]
        have hph := (inv.winPhase w hw).2
        rw [hpc] at hph
        obtain ⟨hst, hpr, hdc⟩ := hph
        refine ⟨hst, hpr, ?_⟩
        show decCount (s.log ++ [RunEvent.refReleased w])
          = if h0 then 1 else 0
        rw [decCount_append, hdc]
        cases h0 <;> rfl
      · rw [Function.update_noteq hwt]
        refine winnerPhase_ext (inv.winPhase w hw).2 rfl rfl ?_
        rw [decCount_append]
        rfl
    · intro u hu
      dsimp only at hu ⊢
      rcases hu with h | h | h | h
      · exact inv.attrib u (Or.inl (mem_append_singleton_ne h (by simp)))
      · exact inv.attrib u
          (Or.inr (Or.inl (mem_append_singleton_ne h (by simp))))
      · exact inv.attrib u
          (Or.inr (Or.inr (Or.inl (mem_append_singleton_ne h (by simp)))))
      · exact inv.attrib u
          (Or.inr (Or.inr (Or.inr (mem_append_singleton_ne h (by simp)))))
    · intro u hu
      dsimp only at hu ⊢
      exact inv.failNotWin u (mem_append_singleton_ne hu (by simp))

/-- The invariant holds in every reachable state of the run race. -/
lemma runInv_reaches {h0 : Bool} {t0 : Int} {rc : Nat} {s : RunState}
    (h : RunReaches (runInit h0 t0 rc) s) : RunInv h0 t0 s := by
  induction h with
  | refl => exact runInv_init h0 t0 rc
  | step hr hs ih => exact runInv_step ih hs

/-- Claim C1: in every interleaving of threads calling `run()` on one core,
the producer is invoked at most once, and only by the thread whose CAS moved
status from NotStarted to Running (the recorded winner, whose `casSucceed`
event is in the log); a thread whose CAS fails (status already Running or
Ready) performs none of the producer/ready/counter actions, and its two steps
change nothing but its program counter, the log, and one reference-count
release; the sequential `run()` on a Running or Ready core equals exactly
`decRefCountMaybeDestroy`. -/
theorem run_producer_at_most_once :
    (∀ (h0 : Bool) (t0 : Int) (rc : Nat) (s : RunState),
        RunReaches (runInit h0 t0 rc) s →
        s.producerRuns ≤ 1
        ∧ (∀ u, RunEvent.invokeProducer u ∈ s.log →
            s.winner = some u ∧ RunEvent.casSucceed u ∈ s.log)
        ∧ (∀ u, RunEvent.casFail u ∈ s.log →
            RunEvent.casSucceed u ∉ s.log
            ∧ RunEvent.invokeProducer u ∉ s.log
            ∧ RunEvent.publishReady u ∉ s.log
            ∧ RunEvent.decTaskSet u ∉ s.log))
    ∧ (∀ (t : Nat) (s s' : RunState), s.pc t = RunPC.casTry →
        s.status ≠ Status.notStarted → RunStep t s s' →
        s' = { s with
               pc := Function.update s.pc t RunPC.releasePC,
               log := s.log ++ [RunEvent.casFail t] })
    ∧ (∀ (t : Nat) (s s' : RunState), s.pc t = RunPC.releasePC →
        RunStep t s s' →
        s' = { s with
               refCount := s.refCount - 1,
               pc := Function.update s.pc t RunPC.finished,
               log := s.log ++ [RunEvent.refReleased t] })
    ∧ (∀ (p : Except Nat Unit) (c : FutureImpl Unit Nat),
        c.status = Status.running ∨ c.status = Status.ready →
        run p c = decRefCountMaybeDestroy c) := by
  refine ⟨?_, ?_, ?_, ?_⟩
  · intro h0 t0 rc s hr
    have inv := runInv_reaches hr
    refine ⟨?_, ?_, ?_⟩
    · cases hw : s.winner with
      | none =>
        have := (inv.winNone hw).2.2.1
        omega
      | some w =>
        have hph := (inv.winPhase w hw).2
        cases hpc : s.pc w <;> rw [hpc] at hph
        · exact hph.elim
        all_goals
          obtain ⟨_, h2, _⟩ := hph
          omega
    · intro u hu
      have hw := inv.attrib u (Or.inr (Or.inl hu))
      exact ⟨hw, (inv.winPhase u hw).1⟩
    · intro u hu
      have hnw := inv.failNotWin u hu
      refine ⟨?_, ?_, ?_, ?_⟩ <;> intro hm
      · exact hnw (inv.attrib u (Or.inl hm))
      · exact hnw (inv.attrib u (Or.inr (Or.inl hm)))
      · exact hnw (inv.attrib u (Or.inr (Or.inr (Or.inl hm))))
      · exact hnw (inv.attrib u (Or.inr (Or.inr (Or.inr hm))))
  · intro t s s' hpc hne hstep
    cases hstep with
    | casWin h1 h2 => exact absurd h2 hne
    | casLose h1 h2 => rfl
    | producerStep h1 =>
      rw [hpc] at h1
      exact absurd h1 (by decide)
    | notifyStep h1 =>
      rw [hpc] at h1
      exact absurd h1 (by decide)
    | counterDec h1 h2 =>
      rw [hpc] at h1
      exact absurd h1 (by decide)
    | counterSkip h1 h2 =>
      rw [hpc] at h1
      exact absurd h1 (by decide)
    | releaseStep h1 =>
      rw [hpc] at h1
      exact absurd h1 (by decide)
  · intro t s s' hpc hstep
    cases hstep with
    | casWin h1 h2 =>
      rw [hpc] at h1
      exact absurd h1 (by decide)
    | casLose h1 h2 =>
      rw [hpc] at h1
      exact absurd h1 (by decide)
    | producerStep h1 =>
      rw [hpc] at h1
      exact absurd h1 (by decide)
    | notifyStep h1 =>
      rw [hpc] at h1
      exact absurd h1 (by decide)
    | counterDec h1 h2 =>
      rw [hpc] at h1
      exact absurd h1 (by decide)
    | counterSkip h1 h2 =>
      rw [hpc] at h1
      exact absurd h1 (by decide)
    | releaseStep h1 => rfl
  · intro p c hc
    rcases hc with h | h <;> simp [run, runProtected, h]

/-- Witness for `run_producer_at_most_once`: a two-step interleaving where
thread 0 wins the CAS and thread 1 then calls `run()` and loses. -/
theorem run_producer_at_most_once_witness :
    c1Wit1.producerRuns ≤ 1
    ∧ c1Wit2 = { c1Wit1 with
                 pc := Function.update c1Wit1.pc 1 RunPC.releasePC,
                 log := c1Wit1.log ++ [RunEvent.casFail 1] }
    ∧ run (Except.ok () : Except Nat Unit)
        { freshImpl true false 0 with status := Status.ready }
        = decRefCountMaybeDestroy
            { (freshImpl true false 0 : FutureImpl Unit Nat) with
              status := Status.ready } := by
  have hreach : RunReaches c1Wit0 c1Wit1 :=
    RunReaches.step RunReaches.refl (RunStep.casWin 0 c1Wit0 rfl rfl)
  refine ⟨((run_producer_at_most_once.1 true 5 2 c1Wit1 hreach)).1, ?_, ?_⟩
  · exact run_producer_at_most_once.2.1 1 c1Wit1 c1Wit2 rfl (by decide)
      (RunStep.casLose 1 c1Wit1 rfl (by decide))
  · exact run_producer_at_most_once.2.2.2 (Except.ok ())
      { freshImpl true false 0 with status := Status.ready } (Or.inr rfl)

/-- Claim C9: with a task-set counter attached, at most one decrement ever
happens; any state whose log contains the decrement has status Ready (the
decrement happens only after the Ready publication, so observing the counter
implies readiness); the external counter equals its initial value minus the
number of decrements; and once the winning `run()` reaches its reference
release, the counter has been decremented exactly once. -/
theorem taskset_counter_decrement :
    ∀ (t0 : Int) (rc : Nat) (s : RunState),
      RunReaches (runInit true t0 rc) s →
      decCount s.log ≤ 1
      ∧ (∀ u, RunEvent.decTaskSet u ∈ s.log →
          s.status = Status.ready ∧ s.winner = some u)
      ∧ s.taskSet = t0 - decCount s.log
      ∧ (∀ w, s.winner = some w →
          s.pc w = RunPC.releasePC ∨ s.pc w = RunPC.finished →
          decCount s.log = 1 ∧ s.taskSet = t0 - 1) := by
  intro t0 rc s hr
  have inv := runInv_reaches hr
  refine ⟨?_, ?_, inv.task, ?_⟩
  · cases hw : s.winner with
    | none =>
      rw [(inv.winNone hw).2.1]
      decide
    | some w =>
      have hph := (inv.winPhase w hw).2
      cases hpc : s.pc w <;> rw [hpc] at hph
      · exact hph.elim
      all_goals
        obtain ⟨_, _, h3⟩ := hph
        rw [h3]
        simp
  · intro u hu
    have hw := inv.attrib u (Or.inr (Or.inr (Or.inr hu)))
    have hdcpos : 0 < decCount s.log := by
      have hmf : RunEvent.decTaskSet u ∈ s.log.filter (fun e =>
          match e with
          | RunEvent.decTaskSet _ => true
          | _ => false) := List.mem_filter.mpr ⟨hu, rfl⟩
      have hne := List.ne_nil_of_mem hmf
      unfold decCount
      exact List.length_pos.mpr hne
    refine ⟨?_, hw⟩
    have hph := (inv.winPhase u hw).2
    cases hpc : s.pc u <;> rw [hpc] at hph
    · exact hph.elim
    · obtain ⟨_, _, h3⟩ := hph
      omega
    · obtain ⟨_, _, h3⟩ := hph
      omega
    · obtain ⟨_, _, h3⟩ := hph
      omega
    · exact hph.1
    · exact hph.1
  · intro w hw hpcs
    have hph := (inv.winPhase w hw).2
    have h4 : decCount s.log = 1 := by
      rcases hpcs with hpc | hpc <;> rw [hpc] at hph <;> simpa using hph.2.2
    refine ⟨h4, ?_⟩
    rw [inv.task, h4]
    simp

/-- Witness for `taskset_counter_decrement`: the full winner trace of thread
0, from the CAS win through the reference release, starting with counter 5. -/
theorem taskset_counter_decrement_witness :
    decCount c9Wit5.log = 1 ∧ c9Wit5.taskSet = 5 - 1 := by
  have hreach : RunReaches c9Wit0 c9Wit5 :=
    RunReaches.step
      (RunReaches.step
        (RunReaches.step
          (RunReaches.step
            (RunReaches.step RunReaches.refl
              (RunStep.casWin 0 c9Wit0 rfl rfl))
            (RunStep.producerStep 0 c9Wit1 rfl))
          (RunStep.notifyStep 0 c9Wit2 rfl))
        (RunStep.counterDec 0 c9Wit3 rfl rfl))
      (RunStep.releaseStep 0 c9Wit4 rfl)
  exact (taskset_counter_decrement 5 2 c9Wit5 hreach).2.2.2 0 rfl (Or.inr rfl)

/-- The then-chain invariant holds initially. -/
lemma thenInv_init (n : Nat) : ThenInv n (thenInit n) := by
  refine ⟨?_, ?_, ?_, ?_, ?_, ?_, ?_⟩
  · intro i hi
    refine ⟨?_, rfl, rfl⟩
    simp only [thenInit]
    rw [if_neg (by omega)]
  · intro i _
    exact ⟨rfl, rfl⟩
  · intro i hi hp
    rcases hp with h | h | h <;> simp [thenInit, hi] at h
  · exact ⟨fun _ => rfl, fun _ => rfl⟩
  · intro i h
    simp only [thenInit] at h
    split at h <;> exact absurd h (by decide)
  · intro h
    exact absurd rfl h
  · intro h
    exact absurd rfl h

/-- The then-chain invariant is preserved by every step. -/
lemma thenInv_step {n : Nat} {s s' : ThenState}
    (inv : ThenInv n s) (hstep : ThenStep s s') : ThenInv n s' := by
  cases hstep with
  | checkReadyExec i _ hpc hrd =>
    have hin : i < n := by
      by_contra hge
      have h1 := (inv.inactive i (by omega)).1
      rw [hpc] at h1
      exact absurd h1 (by decide)
    have hcnt := inv.preCount i (Or.inl hpc)
    refine ⟨?_, ?_, ?_, ?_, ?_, ?_, ?_⟩
    · intro j hj
      have hji : j ≠ i := by omega
      obtain ⟨h1, h2, h3⟩ := inv.inactive j hj
      refine ⟨?_, h2, ?_⟩
      · dsimp only
        rw [Function.update_noteq hji]
        exact h1
      · dsimp only
        rw [List.count_append, h3]
        simp [List.count_cons, hji]
    · intro j hj
      dsimp only at hj ⊢
      by_cases hji : j = i
      · subst hji
        rw [Function.update_same] at hj
        rcases hj with h | h <;> exact absurd h (by decide)
      · rw [Function.update_noteq hji] at hj
        obtain ⟨h1, h2⟩ := inv.preCount j hj
        refine ⟨h1, ?_⟩
        rw [List.count_append, h2]
        simp [List.count_cons, hji]
    · intro j hjn hj
      dsimp only at hj ⊢
      by_cases hji : j = i
      · subst hji
        rw [List.count_append, hcnt.1, hcnt.2]
        simp [List.count_cons]
      · rw [Function.update_noteq hji] at hj
        have hsum := inv.postCount j hjn hj
        rw [List.count_append]
        have hz : [i].count j = 0 := by simp [List.count_cons, hji]
        rw [hz]
        omega
    · exact inv.readyIffCpc
    · intro j hj
      dsimp only at hj ⊢
      by_cases hji : j = i
      · subst hji
        rw [Function.update_same] at hj
        exact absurd hj (by decide)
      · rw [Function.update_noteq hji] at hj
        exact inv.drainReady j hj
    · intro hch
      dsimp only at hch ⊢
      rcases inv.quiesce hch with h | h | ⟨j, hj⟩
      · exact Or.inl h
      · exact Or.inr (Or.inl h)
      · refine Or.inr (Or.inr ⟨j, ?_⟩)
        have hji : j ≠ i := by
          intro he
          subst he
          rcases hj with h | h <;> rw [hpc] at h <;> exact absurd h (by decide)
        rw [Function.update_noteq hji]
        exact hj
    · intro _
      exact hrd
  | checkNotReady i _ hpc hrd =>
    refine ⟨?_, ?_, ?_, inv.readyIffCpc, ?_, ?_, inv.execReady⟩
    · intro j hj
      obtain ⟨h1, h2, h3⟩ := inv.inactive j hj
      have hji : j ≠ i := by
        intro he
        subst he
        rw [hpc] at h1
        exact absurd h1 (by decide)
      refine ⟨?_, h2, h3⟩
      dsimp only
      rw [Function.update_noteq hji]
      exact h1
    · intro j hj
      dsimp only at hj ⊢
      by_cases hji : j = i
      · subst hji
        exact inv.preCount j (Or.inl hpc)
      · rw [Function.update_noteq hji] at hj
        exact inv.preCount j hj
    · intro j hjn hj
      dsimp only at hj ⊢
      by_cases hji : j = i
      · subst hji
        rw [Function.update_same] at hj
        rcases hj with h | h | h <;> exact absurd h (by decide)
      · rw [Function.update_noteq hji] at hj
        exact inv.postCount j hjn hj
    · intro j hj
      dsimp only at hj ⊢
      by_cases hji : j = i
      · subst hji
        rw [Function.update_same] at hj
        exact absurd hj (by decide)
      · rw [Function.update_noteq hji] at hj
        exact inv.drainReady j hj
    · intro hch
      dsimp only at hch ⊢
      rcases inv.quiesce hch with h | h | ⟨j, hj⟩
      · exact Or.inl h
      · exact Or.inr (Or.inl h)
      · refine Or.inr (Or.inr ⟨j, ?_⟩)
        have hji : j ≠ i := by
          intro he
          subst he
          rcases hj with h | h <;> rw [hpc] at h <;> exact absurd h (by decide)
        rw [Function.update_noteq hji]
        exact hj
  | pushStep i _ hpc =>
    have hin : i < n := by
      by_contra hge
      have h1 := (inv.inactive i (by omega)).1
      rw [hpc] at h1
      exact absurd h1 (by decide)
    have hcnt := inv.preCount i (Or.inr hpc)
    refine ⟨?_, ?_, ?_, inv.readyIffCpc, ?_, ?_, inv.execReady⟩
    · intro j hj
      have hji : j ≠ i := by omega
      obtain ⟨h1, h2, h3⟩ := inv.inactive j hj
      refine ⟨?_, ?_, h3⟩
      · dsimp only
        rw [Function.update_noteq hji]
        exact h1
      · dsimp only
        simp [List.count_cons, hji, h2]
    · intro j hj
      dsimp only at hj ⊢
      by_cases hji : j = i
      · subst hji
        rw [Function.update_same] at hj
        rcases hj with h | h <;> exact absurd h (by decide)
      · rw [Function.update_noteq hji] at hj
        obtain ⟨h1, h2⟩ := inv.preCount j hj
        refine ⟨?_, h2⟩
        simp [List.count_cons, hji, h1]
    · intro j hjn hj
      dsimp only at hj ⊢
      by_cases hji : j = i
      · subst hji
        rw [List.count_cons, hcnt.1, hcnt.2]
        simp
      · rw [Function.update_noteq hji] at hj
        have hsum := inv.postCount j hjn hj
        have hc : (i :: s.chain).count j = s.chain.count j := by
          simp [List.count_cons, hji]
        rw [hc]
        omega
    · intro j hj
      dsimp only at hj ⊢
      by_cases hji : j = i
      · subst hji
        rw [Function.update_same] at hj
        exact absurd hj (by decide)
      · rw [Function.update_noteq hji] at hj
        exact inv.drainReady j hj
    · intro _
      refine Or.inr (Or.inr ⟨i, Or.inl ?_⟩)
      dsimp only
      rw [Function.update_same]
  | recheckReady i _ hpc hrd =>
    have hin : i < n := by
      by_contra hge
      have h1 := (inv.inactive i (by omega)).1
      rw [hpc] at h1
      exact absurd h1 (by decide)
    refine ⟨?_, ?_, ?_, inv.readyIffCpc, ?_, ?_, inv.execReady⟩
    · intro j hj
      have hji : j ≠ i := by omega
      obtain ⟨h1, h2, h3⟩ := inv.inactive j hj
      refine ⟨?_, h2, h3⟩
      dsimp only
      rw [Function.update_noteq hji]
      exact h1
    · intro j hj
      dsimp only at hj ⊢
      by_cases hji : j = i
      · subst hji
        rw [Function.update_same] at hj
        rcases hj with h | h <;> exact absurd h (by decide)
      · rw [Function.update_noteq hji] at hj
        exact inv.preCount j hj
    · intro j hjn hj
      dsimp only at hj ⊢
      by_cases hji : j = i
      · subst hji
        exact inv.postCount j hjn (Or.inl hpc)
      · rw [Function.update_noteq hji] at hj
        exact inv.postCount j hjn hj
    · intro j hj
      dsimp only at hj ⊢
      by_cases hji : j = i
      · exact hrd
      · rw [Function.update_noteq hji] at hj
        exact inv.drainReady j hj
    · intro hch
      dsimp only at hch ⊢
      rcases inv.quiesce hch with h | h | ⟨j, hj⟩
      · exact Or.inl h
      · exact Or.inr (Or.inl h)
      · by_cases hji : j = i
        · subst hji
          refine Or.inr (Or.inr ⟨j, Or.inr ?_⟩)
          rw [Function.update_same]
        · refine Or.inr (Or.inr ⟨j, ?_⟩)
          rw [Function.update_noteq hji]
          exact hj
  | recheckNotReady i _ hpc hrd =>
    have hin : i < n := by
      by_contra hge
      have h1 := (inv.inactive i (by omega)).1
      rw [hpc] at h1
      exact absurd h1 (by decide)
    refine ⟨?_, ?_, ?_, inv.readyIffCpc, ?_, ?_, inv.execReady⟩
    · intro j hj
      have hji : j ≠ i := by omega
      obtain ⟨h1, h2, h3⟩ := inv.inactive j hj
      refine ⟨?_, h2, h3⟩
      dsimp only
      rw [Function.update_noteq hji]
      exact h1
    · intro j hj
      dsimp only at hj ⊢
      by_cases hji : j = i
      · subst hji
        rw [Function.update_same] at hj
        rcases hj with h | h <;> exact absurd h (by decide)
      · rw [Function.update_noteq hji] at hj
        exact inv.preCount j hj
    · intro j hjn hj
      dsimp only at hj ⊢
      by_cases hji : j = i
      · subst hji
        exact inv.postCount j hjn (Or.inl hpc)
      · rw [Function.update_noteq hji] at hj
        exact inv.postCount j hjn hj
    · intro j hj
      dsimp only at hj ⊢
      by_cases hji : j = i
      · subst hji
        rw [Function.update_same] at hj
        exact absurd hj (by decide)
      · rw [Function.update_noteq hji] at hj
        exact inv.drainReady j hj
    · intro _
      exact Or.inl (inv.readyIffCpc.mp hrd)
  | installerGrab i _ hpc hch =>
    have hrd := inv.drainReady i hpc
    refine ⟨?_, ?_, ?_, inv.readyIffCpc, inv.drainReady, ?_, ?_⟩
    · intro j hj
      obtain ⟨h1, h2, h3⟩ := inv.inactive j hj
      refine ⟨h1, rfl, ?_⟩
      dsimp only
      rw [List.count_append, h2, h3]
    · intro j hj
      dsimp only at hj ⊢
      obtain ⟨h1, h2⟩ := inv.preCount j hj
      refine ⟨rfl, ?_⟩
      rw [List.count_append, h1, h2]
    · intro j hjn hj
      dsimp only at hj ⊢
      have hsum := inv.postCount j hjn hj
      rw [List.count_append]
      simp only [List.count_nil]
      omega
    · intro hch2
      exact absurd rfl hch2
    · intro _
      exact hrd
  | installerDrainDone i _ hpc hch =>
    have hin : i < n := by
      by_contra hge
      have h1 := (inv.inactive i (by omega)).1
      rw [hpc] at h1
      exact absurd h1 (by decide)
    refine ⟨?_, ?_, ?_, inv.readyIffCpc, ?_, ?_, inv.execReady⟩
    · intro j hj
      have hji : j ≠ i := by omega
      obtain ⟨h1, h2, h3⟩ := inv.inactive j hj
      refine ⟨?_, h2, h3⟩
      dsimp only
      rw [Function.update_noteq hji]
      exact h1
    · intro j hj
      dsimp only at hj ⊢
      by_cases hji : j = i
      · subst hji
        rw [Function.update_same] at hj
        rcases hj with h | h <;> exact absurd h (by decide)
      · rw [Function.update_noteq hji] at hj
        exact inv.preCount j hj
    · intro j hjn hj
      dsimp only at hj ⊢
      by_cases hji : j = i
      · subst hji
        exact inv.postCount j hjn (Or.inr (Or.inl hpc))
      · rw [Function.update_noteq hji] at hj
        exact inv.postCount j hjn hj
    · intro j hj
      dsimp only at hj ⊢
      by_cases hji : j = i
      · subst hji
        rw [Function.update_same] at hj
        exact absurd hj (by decide)
      · rw [Function.update_noteq hji] at hj
        exact inv.drainReady j hj
    · intro hch2
      exact absurd hch hch2
  | completerPublish _ hcpc =>
    refine ⟨inv.inactive, inv.preCount, inv.postCount, ?_, ?_, ?_, ?_⟩
    · constructor
      · intro h
        dsimp only at h
        exact absurd h (by decide)
      · intro h
        dsimp only at h
        exact absurd h (by decide)
    · intro j _
      rfl
    · intro _
      exact Or.inr (Or.inl rfl)
    · intro _
      rfl
  | completerGrab _ hcpc hch =>
    have hrd : s.ready = true := by
      cases hr : s.ready with
      | false =>
        have h2 := inv.readyIffCpc.mp hr
        rw [hcpc] at h2
        exact absurd h2 (by decide)
      | true => rfl
    refine ⟨?_, ?_, ?_, inv.readyIffCpc, inv.drainReady, ?_, ?_⟩
    · intro j hj
      obtain ⟨h1, h2, h3⟩ := inv.inactive j hj
      refine ⟨h1, rfl, ?_⟩
      dsimp only
      rw [List.count_append, h2, h3]
    · intro j hj
      dsimp only at hj ⊢
      obtain ⟨h1, h2⟩ := inv.preCount j hj
      refine ⟨rfl, ?_⟩
      rw [List.count_append, h1, h2]
    · intro j hjn hj
      dsimp only at hj ⊢
      have hsum := inv.postCount j hjn hj
      rw [List.count_append]
      simp only [List.count_nil]
      omega
    · intro hch2
      exact absurd rfl hch2
    · intro _
      exact hrd
  | completerDrainDone _ hcpc hch =>
    refine ⟨inv.inactive, inv.preCount, inv.postCount, ?_, inv.drainReady,
      ?_, inv.execReady⟩
    · constructor
      · intro hr
        have h2 := inv.readyIffCpc.mp hr
        rw [hcpc] at h2
        exact absurd h2 (by decide)
      · intro h
        dsimp only at h
        exact absurd h (by decide)
    · intro hch2
      exact absurd hch hch2

/-- The then-chain invariant holds in every reachable state. -/
lemma thenInv_reaches {n : Nat} {s : ThenState}
    (h : ThenReaches (thenInit n) s) : ThenInv n s := by
  induction h with
  | refl => exact thenInv_init n
  | step hr hs ih => exact thenInv_step ih hs

/-- Claim C4: under any interleaving of continuation installers with the
completing thread, continuations only ever execute after Ready is published,
no continuation executes twice, and in any quiescent state (all installers and
the completer finished) the chain has been fully drained and every installed
continuation has executed exactly once — none lost, none duplicated. -/
theorem then_chain_runs_each_continuation_once (n : Nat) (s : ThenState)
    (hr : ThenReaches (thenInit n) s) :
    (s.execs ≠ [] → s.ready = true)
    ∧ (∀ i, s.execs.count i ≤ 1)
    ∧ ((∀ i, s.ipc i = InstallerPC.finished) →
        s.cpc = CompleterPC.finished →
        s.chain = [] ∧ ∀ i, i < n → s.execs.count i = 1) := by
  have inv := thenInv_reaches hr
  refine ⟨inv.execReady, ?_, ?_⟩
  · intro i
    by_cases hin : i < n
    · cases hpc : s.ipc i with
      | checkStatus =>
        rw [(inv.preCount i (Or.inl hpc)).2]
        omega
      | pushNode =>
        rw [(inv.preCount i (Or.inr hpc)).2]
        omega
      | recheckStatus =>
        have := inv.postCount i hin (Or.inl hpc)
        omega
      | draining =>
        have := inv.postCount i hin (Or.inr (Or.inl hpc))
        omega
      | finished =>
        have := inv.postCount i hin (Or.inr (Or.inr hpc))
        omega
    · have := (inv.inactive i (by omega)).2.2
      omega
  · intro hidone hcdone
    have hchain : s.chain = [] := by
      by_cases hch : s.chain = []
      · exact hch
      · rcases inv.quiesce hch with h | h | ⟨j, hj⟩
        · rw [hcdone] at h
          exact absurd h (by decide)
        · rw [hcdone] at h
          exact absurd h (by decide)
        · rcases hj with h | h <;> rw [hidone j] at h <;>
            exact absurd h (by decide)
    refine ⟨hchain, ?_⟩
    intro i hin
    have hsum := inv.postCount i hin (Or.inr (Or.inr (hidone i)))
    rw [hchain] at hsum
    simpa using hsum

/-- Witness for `then_chain_runs_each_continuation_once`: one installer racing
one completer; the completer publishes Ready, the installer sees Ready and
executes its continuation directly, the completer drains the empty chain. -/
theorem then_chain_runs_each_continuation_once_witness :
    c4Wit3.chain = [] ∧ c4Wit3.execs.count 0 = 1 := by
  have h1 : ThenStep c4Wit0 c4Wit1 := ThenStep.completerPublish c4Wit0 rfl
  have h2 : ThenStep c4Wit1 c4Wit2 := ThenStep.checkReadyExec 0 c4Wit1 rfl rfl
  have h3 : ThenStep c4Wit2 c4Wit3 :=
    ThenStep.completerDrainDone c4Wit2 rfl rfl
  have hr : ThenReaches (thenInit 1) c4Wit3 :=
    ThenReaches.step
      (ThenReaches.step (ThenReaches.step ThenReaches.refl h1) h2) h3
  have hidone : ∀ i, c4Wit3.ipc i = InstallerPC.finished := by
    intro i
    cases i with
    | zero => rfl
    | succ k => rfl
  have h := (then_chain_runs_each_continuation_once 1 c4Wit3 hr).2.2 hidone rfl
  exact ⟨h.1, h.2 0 (by decide)⟩

end Dispenso
